import Mathlib

/-!
# graphism: bucketed adjacency lists with a union-find overlay (src/graph.c)

A shallow embedding of `src/graph.c`.

Modelling conventions.

* C `int` values are `Int`.  The only arithmetic on stored values is the
  increment of `v_nr_connections`, a 32-bit `int`.  Signed overflow is not
  defined by ISO C; the model takes what the compiled code does, the
  two's-complement wrap-around of `wrap_int`: the successor of `INT_MAX` is
  `INT_MIN`.
* A C array of fixed size `N` is a function on `Fin N`.  An access with an
  index outside the array, or through a NULL pointer, is undefined behaviour;
  every operation returns an `Option` whose `none` stands for undefined
  behaviour.
* A pointer that may be NULL is an `Option`.  A pointer to a vertex is the slot
  that holds it: the code only ever reaches a vertex through its slot.
* The singly walked, doubly linked edge chain (`e_next`, `e_prev`) is a `List`
  in chain order.
* `malloc` is taken to succeed, so the `-ENOMEM` exits guarded by a failed
  allocation are not reachable in the model.  The contents of a freshly
  allocated bucket are indeterminate in C; `graph_create` takes them as the
  argument `mem`.
* The back pointers `v_graph` and `adj_graph` are never read by the code (and
  `adj_graph` is never written); they are left out.
* The heap is not part of the state: `free` changes nothing in the model, and
  `graph_destroy` returns, next to the graph, a record of the calls of
  `vertice_destroy` it made.
-/

namespace Graphism

/-! ## Constants -/

/-- The macro `ADJ_GROUPS_NR`: number of bucket pointers held by a graph. -/
abbrev ADJ_GROUPS_NR : Nat := 8

/-- The macro `ADJ_GROUP_SZ`: number of vertex slots of one bucket. -/
abbrev ADJ_GROUP_SZ : Nat := 16

/-- The errno value `EINVAL`. -/
def EINVAL : Int := 22

/-- The errno value `ENOMEM`. -/
def ENOMEM : Int := 12

/-- The largest value of a 32-bit `int`. -/
def INT_MAX : Int := 2147483647

/-- The least value of a 32-bit `int`. -/
def INT_MIN : Int := -2147483648

/-- The value a 32-bit two's-complement `int` holds for the exact result `x`:
`x` reduced modulo 2^32 into `[INT_MIN, INT_MAX]`. -/
def wrap_int (x : Int) : Int :=
  (x + 2147483648) % 4294967296 - 2147483648

/-! ## Data model -/

/-- The record `struct edge`.  The flag `e_back` is never assigned by the code:
`none` is the indeterminate value left by `malloc`. -/
structure edge where
  e_data : Int
  e_weight : Int
  e_back : Option Bool
deriving DecidableEq, Repr

/-- The record `struct vertice`; `v_edge` is the chain of edges in order. -/
structure vertice where
  v_id : Int
  v_data : Int
  v_parent : Int
  v_nr_connections : Int
  v_edge : List edge
deriving DecidableEq, Repr

/-- The record `struct adjGroup`: one bucket of `ADJ_GROUP_SZ` vertex slots. -/
structure adjGroup where
  adj_list : Fin ADJ_GROUP_SZ → Option vertice

/-- The record `struct graph`. -/
structure graph where
  g_nr_vertices : Int
  g_nr_adj_list_groups : Int
  g_directed : Bool
  g_adj_list_groups : Fin ADJ_GROUPS_NR → Option adjGroup

/-- Index into `adj_list`: defined only inside the array bounds. -/
def slotIx (i : Int) : Option (Fin ADJ_GROUP_SZ) :=
  if h : 0 ≤ i ∧ i < 16 then some ⟨i.toNat, by show i.toNat < 16; omega⟩ else none

/-- Index into `g_adj_list_groups`: defined only inside the array bounds. -/
def groupIx (i : Int) : Option (Fin ADJ_GROUPS_NR) :=
  if h : 0 ≤ i ∧ i < 8 then some ⟨i.toNat, by show i.toNat < 8; omega⟩ else none

/-- The assignment `ag->adj_list[i] = v`. -/
def setSlot (ag : adjGroup) (i : Fin ADJ_GROUP_SZ) (v : Option vertice) : adjGroup :=
  { ag with adj_list := Function.update ag.adj_list i v }

/-- The assignment `g->g_adj_list_groups[k] = ag`. -/
def setGroup (g : graph) (k : Fin ADJ_GROUPS_NR) (ag : Option adjGroup) : graph :=
  { g with g_adj_list_groups := Function.update g.g_adj_list_groups k ag }

/-- A bucket all of whose slots are NULL. -/
def emptyGroup : adjGroup := ⟨fun _ => none⟩

/-! ## Operations -/

/-- The function `vertice_create`: a fresh vertex with id, payload and parent
all equal to `data`, no connections and no edges. -/
def vertice_create (_ag : adjGroup) (data : Int) : vertice :=
  { v_id := data, v_data := data, v_parent := data, v_nr_connections := 0, v_edge := [] }

/-- The function `vertice_find`.  Outer `none`: undefined behaviour (index out
of the slot array).  Inner `none`: the function returns NULL (bucket pointer is
NULL).  Otherwise the slot of the vertex found or created, with the bucket
after the call. -/
def vertice_find (ag : Option adjGroup) (vertex : Int) :
    Option (Option (Fin ADJ_GROUP_SZ × adjGroup)) :=
  match ag with
  | none => some none
  | some ag =>
    match slotIx vertex with
    | none => none
    | some i =>
      match ag.adj_list i with
      | some _ => some (some (i, ag))
      | none => some (some (i, setSlot ag i (some (vertice_create ag vertex))))

/-- The loop of `_edge_add` over the edge chain: stop at the first edge whose
`e_data` is `dst` and leave the chain as it is, else link a new edge after the
last one. -/
def edge_chain_add : List edge → Int → Int → List edge
  | [], dst, weight => [{ e_data := dst, e_weight := weight, e_back := none }]
  | e :: es, dst, weight =>
    if e.e_data = dst then e :: es else e :: edge_chain_add es dst weight

/-- The function `_edge_add`: result code and the vertex after the call. -/
def _edge_add (v : vertice) (dst weight : Int) : Int × vertice :=
  (0, { v with v_edge := edge_chain_add v.v_edge dst weight })

/-- The function `unionOf`; `none` is undefined behaviour (a slot index out of
bounds or an empty slot dereferenced). -/
def unionOf (ag : adjGroup) (a b : Int) : Option adjGroup :=
  match slotIx a, slotIx b with
  | some ia, some ib =>
    match ag.adj_list ia, ag.adj_list ib with
    | some va, some vb =>
      if va.v_parent = a ∧ vb.v_parent = b then
        let parent := if a < b then a else b
        let parentof := if a < b then b else a
        match slotIx parentof with
        | none => none
        | some ip =>
          match ag.adj_list ip with
          | none => none
          | some vp =>
            let ag1 := setSlot ag ip (some { vp with v_parent := parent })
            match slotIx parent with
            | none => none
            | some iq =>
              match ag1.adj_list iq with
              | none => none
              | some vq =>
                some (setSlot ag1 iq
                  (some { vq with v_nr_connections := wrap_int (vq.v_nr_connections + 1) }))
      else if va.v_parent = vb.v_parent then
        some ag
      else if va.v_parent = a then
        some (setSlot ag ia (some { va with v_parent := vb.v_parent }))
      else
        some (setSlot ag ib (some { vb with v_parent := va.v_parent }))
    | _, _ => none
  | _, _ => none

/-- The function `edge_add`: result code and the graph after the call; `none`
is undefined behaviour.  A NULL graph gives `-EINVAL`. -/
def edge_add (g : Option graph) (src dst weight : Int) : Option (Int × Option graph) :=
  match g with
  | none => some (-EINVAL, none)
  | some g =>
    match groupIx (Int.tdiv src 16) with
    | none => none
    | some k =>
      match vertice_find (g.g_adj_list_groups k) src with
      | none => none
      | some none => some (-ENOMEM, some g)
      | some (some (i, ag)) =>
        match ag.adj_list i with
        | none => none
        | some v =>
          let r := _edge_add v dst weight
          let ag1 := setSlot ag i (some r.2)
          if r.1 = 0 then
            match vertice_find (some ag1) dst with
            | none => none
            | some none => some (-ENOMEM, some (setGroup g k (some ag1)))
            | some (some (_, ag2)) =>
              match unionOf ag2 src dst with
              | none => none
              | some ag3 => some (r.1, some (setGroup g k (some ag3)))
          else
            some (r.1, some (setGroup g k (some ag1)))

/-- The function `is_related`; `none` is undefined behaviour (NULL graph or
bucket, slot index out of bounds, or an empty slot dereferenced). -/
def is_related (g : Option graph) (a b : Int) : Option Bool :=
  match g with
  | none => none
  | some g =>
    match groupIx (Int.tdiv a 16) with
    | none => none
    | some k =>
      match g.g_adj_list_groups k with
      | none => none
      | some ag =>
        match slotIx a, slotIx b with
        | some ia, some ib =>
          match ag.adj_list ia, ag.adj_list ib with
          | some va, some vb => some (decide (va.v_parent = vb.v_parent))
          | _, _ => none
        | _, _ => none

/-- First loop of `graph_create`: for each counter value `i` of the list (0 up
to the bucket count), bucket pointer `i` receives a fresh allocation. -/
def create_alloc (mem : Nat → adjGroup) (g : graph) : List Nat → Option graph
  | [] => some g
  | i :: is =>
    (groupIx i).bind fun k => create_alloc mem (setGroup g k (some (mem i))) is

/-- Inner loop of `graph_create`: `ADJ_GROUP_SZ` times the assignment
`ag->adj_list[i] = NULL` (the index is the outer counter `i`). -/
def create_clear_slots (i : Nat) (ag : adjGroup) : List Nat → Option adjGroup
  | [] => some ag
  | _ :: js => (slotIx i).bind (fun s => create_clear_slots i (setSlot ag s none) js)

/-- Second loop of `graph_create`, over the buckets. -/
def create_clear (g : graph) : List Nat → Option graph
  | [] => some g
  | i :: is =>
    (groupIx i).bind fun k =>
      (g.g_adj_list_groups k).bind fun ag =>
        (create_clear_slots i ag (List.range ADJ_GROUP_SZ)).bind fun ag1 =>
          create_clear (setGroup g k (some ag1)) is

/-- The function `graph_create`.  `g` is the graph record handed in (NULL, or
its indeterminate previous contents), `mem i` the indeterminate contents of the
bucket allocated at iteration `i`. -/
def graph_create (g : Option graph) (vertices : Int) (directed : Bool)
    (mem : Nat → adjGroup) : Option (Int × Option graph) :=
  match g with
  | none => some (-EINVAL, none)
  | some g =>
    let nr : Int :=
      if Int.tmod vertices 16 > 0 then Int.tdiv vertices 16 + 1 else Int.tdiv vertices 16
    let g1 : graph :=
      { g with g_directed := directed, g_nr_vertices := vertices, g_nr_adj_list_groups := nr }
    match create_alloc mem g1 (List.range nr.toNat) with
    | none => none
    | some g2 =>
      match create_clear g2 (List.range nr.toNat) with
      | none => none
      | some g3 => some (0, some g3)

/-! ## Sequencing and observation -/

/-- Run `edge_add` on a graph and keep the graph it leaves. -/
def add (g : Option graph) (src dst weight : Int) : Option (Option graph) :=
  (edge_add g src dst weight).map Prod.snd

/-- The calls of `main` up to the query: `graph_create(&g, 12, false)` on a
graph record with previous contents `g0`, all allocated slots being NULL, then
the fourteen `edge_add` calls in order. -/
def main_graph (g0 : graph) : Option (Option graph) := do
  let r ← graph_create (some g0) 12 false (fun _ => emptyGroup)
  let g ← add r.2 0 1 4
  let g ← add g 1 2 8
  let g ← add g 2 3 7
  let g ← add g 3 4 9
  let g ← add g 3 5 14
  let g ← add g 4 5 10
  let g ← add g 5 6 2
  let g ← add g 6 7 1
  let g ← add g 7 0 8
  let g ← add g 7 8 7
  let g ← add g 8 6 6
  let g ← add g 8 2 2
  let g ← add g 2 5 4
  add g 9 10 4

/-! ## Observations -/

/-- The vertex stored in a bucket under id `v` (slot `v`), if any. -/
def slot_at (ag : adjGroup) (v : Int) : Option vertice :=
  (slotIx v).bind ag.adj_list

/-- The vertex stored for id `v`, addressed as the code does: slot `v` of
bucket `v / 16`. -/
def vertex_at (g : graph) (v : Int) : Option vertice :=
  match groupIx (Int.tdiv v 16) with
  | none => none
  | some k => (g.g_adj_list_groups k).bind (fun ag => slot_at ag v)

/-- Stored parent id of vertex `v`, if `v` is materialised. -/
def parentOf (g : graph) (v : Int) : Option Int :=
  (vertex_at g v).map (fun x => x.v_parent)

/-- Connection count of vertex `v`, if `v` is materialised. -/
def connsOf (g : graph) (v : Int) : Option Int :=
  (vertex_at g v).map (fun x => x.v_nr_connections)

/-- Edge list of vertex `v`, if `v` is materialised. -/
def edgesOf (g : graph) (v : Int) : Option (List edge) :=
  (vertex_at g v).map (fun x => x.v_edge)

/-- Follow a parent map `k` times from `v`; `none` once the map is undefined. -/
def follow (p : Int → Option Int) : Nat → Int → Option Int
  | 0, v => some v
  | k + 1, v => (p v).bind (follow p k)

/-- In the parent map `p` the chain of `v` terminates at `r`: following `p` from
`v` reaches `r` after finitely many steps, and `r` is its own parent. -/
def ends (p : Int → Option Int) (v r : Int) : Prop :=
  (∃ k, follow p k v = some r) ∧ p r = some r

/-- The parent chain of `v` terminates at `r`: following stored parents from
`v` reaches `r` after finitely many steps, and `r` is its own stored parent. -/
def ends_at (g : graph) (v r : Int) : Prop :=
  ends (parentOf g) v r

/-- Every id on which the parent map is defined has a chain that terminates at
a self-parented id. -/
def forest (p : Int → Option Int) : Prop :=
  ∀ v, p v ≠ none → ∃ r, ends p v r

/-- Graph states reachable from a fresh graph (a successful `graph_create` whose
allocated slots are all NULL) by `edge_add` calls with both ids in `[0, 16)` and
below the capacity. -/
inductive Reachable : graph → Prop
  | fresh (g0 : graph) (n : Int) (d : Bool) (g : graph) :
      graph_create (some g0) n d (fun _ => emptyGroup) = some (0, some g) → Reachable g
  | step (g : graph) (src dst w rc : Int) (g1 : graph) :
      Reachable g → 0 ≤ src → src < 16 → src < g.g_nr_vertices →
      0 ≤ dst → dst < 16 → dst < g.g_nr_vertices →
      edge_add (some g) src dst w = some (rc, some g1) → Reachable g1

/-- The graph left by a call, or `dflt` if the call has no defined result. -/
def graph_after (r : Option (Int × Option graph)) (dflt : graph) : graph :=
  match r with
  | some (_, some g) => g
  | _ => dflt

/-! ## Bucket-level view of `edge_add` -/

/-- Effect of `vertice_find` on the bucket when slot `i` holds id `v`. -/
def materialise (ag : adjGroup) (v : Int) (i : Fin ADJ_GROUP_SZ) : adjGroup :=
  match ag.adj_list i with
  | some _ => ag
  | none => setSlot ag i (some (vertice_create ag v))

/-- Effect of `_edge_add` on the vertex in slot `i`. -/
def with_edge (ag : adjGroup) (i : Fin ADJ_GROUP_SZ) (dst w : Int) : adjGroup :=
  match ag.adj_list i with
  | some v => setSlot ag i (some (_edge_add v dst w).2)
  | none => ag

/-- The bucket as `edge_add` hands it to `unionOf`. -/
def before_union (ag : adjGroup) (src dst w : Int) (i j : Fin ADJ_GROUP_SZ) : adjGroup :=
  materialise (with_edge (materialise ag src i) i dst w) dst j

/-- The bucket left by `unionOf` when slots `ia`, `ib` hold `va`, `vb`: the
branches of `unionOf` with every load resolved. -/
def union_result (ag : adjGroup) (a b : Int) (ia ib : Fin ADJ_GROUP_SZ)
    (va vb : vertice) : adjGroup :=
  if va.v_parent = a ∧ vb.v_parent = b then
    if a < b then
      setSlot (setSlot ag ib (some { vb with v_parent := a })) ia
        (some { va with v_nr_connections := wrap_int (va.v_nr_connections + 1) })
    else
      let va1 : vertice := { va with v_parent := b }
      let vq : vertice := if ib = ia then va1 else vb
      setSlot (setSlot ag ia (some va1)) ib
        (some { vq with v_nr_connections := wrap_int (vq.v_nr_connections + 1) })
  else if va.v_parent = vb.v_parent then ag
  else if va.v_parent = a then setSlot ag ia (some { va with v_parent := vb.v_parent })
  else setSlot ag ib (some { vb with v_parent := va.v_parent })

/-- Stored parent of the vertex in slot `v` of a bucket. -/
def parent_at (ag : adjGroup) (v : Int) : Option Int :=
  (slot_at ag v).map (fun x => x.v_parent)

/-- Connection count of the vertex in slot `v` of a bucket. -/
def conns_at (ag : adjGroup) (v : Int) : Option Int :=
  (slot_at ag v).map (fun x => x.v_nr_connections)

/-- Edge list of the vertex in slot `v` of a bucket. -/
def edges_at (ag : adjGroup) (v : Int) : Option (List edge) :=
  (slot_at ag v).map (fun x => x.v_edge)

/-- A graph record whose fields are all zero or NULL. -/
def blank_graph : graph := ⟨0, 0, false, fun _ => none⟩

/-- The graph left by `graph_create` with capacity `n`, undirected, on a blank
record, all allocated slots being NULL. -/
def fresh_graph (n : Int) : graph :=
  graph_after (graph_create (some blank_graph) n false (fun _ => emptyGroup)) blank_graph

/-- The graph left by `edge_add(g, src, dst, w)`. -/
def after_add (g : graph) (src dst w : Int) : graph :=
  graph_after (edge_add (some g) src dst w) g

/-- Parent map after the two `vertice_find` calls of `edge_add`: an id that was
not materialised becomes its own parent. -/
def mat_map (p : Int → Option Int) (src dst : Int) : Int → Option Int :=
  fun v => if v = src ∨ v = dst then some ((p v).getD v) else p v

/-- Parent map after `unionOf(ag, a, b)` in terms of the parent map before, both
ids being materialised. -/
def union_map (p : Int → Option Int) (a b : Int) : Int → Option Int :=
  if p a = some a ∧ p b = some b then
    Function.update p (if a < b then b else a) (some (if a < b then a else b))
  else if p a = p b then p
  else if p a = some a then Function.update p a (p b)
  else Function.update p b (p a)

/-- Parent map after `edge_add(g, src, dst, w)` in terms of the one before. -/
def next_parent (p : Int → Option Int) (src dst : Int) : Int → Option Int :=
  union_map (mat_map p src dst) src dst

/-- Capacity 3, then `edge_add` for (1,2) and (0,1): stored parents 0 -> 0,
1 -> 0, 2 -> 1. -/
def chain_graph : graph := after_add (after_add (fresh_graph 3) 1 2 0) 0 1 0

/-- The graph `chain_graph` after `edge_add` for (0,2): stored parents 0 -> 1,
1 -> 0, 2 -> 1. -/
def cycle_graph : graph := after_add chain_graph 0 2 0

/-- Capacity 4, then `edge_add` for (0,1) and (2,3): stored parents 0 -> 0,
1 -> 0, 2 -> 2, 3 -> 2. -/
def two_pairs_graph : graph := after_add (after_add (fresh_graph 4) 0 1 0) 2 3 0

/-- The call `edge_add(g, src, dst, w)` joins `src` and `dst` without closing a
parent cycle: once both are materialised they are both self-parented, or their
stored parents are equal, or their parent chains have no common
representative. -/
def safe_call (p : Int → Option Int) (src dst : Int) : Prop :=
  (mat_map p src dst src = some src ∧ mat_map p src dst dst = some dst) ∨
  mat_map p src dst src = mat_map p src dst dst ∨
  ¬ ∃ r, ends (mat_map p src dst) src r ∧ ends (mat_map p src dst) dst r

/-- Graph states reachable from a fresh graph by `edge_add` calls (ids in
`[0, 16)` and below the capacity) each of which is a `safe_call`. -/
inductive SafeReachable : graph → Prop
  | fresh (g0 : graph) (n : Int) (d : Bool) (g : graph) :
      graph_create (some g0) n d (fun _ => emptyGroup) = some (0, some g) → SafeReachable g
  | step (g : graph) (src dst w rc : Int) (g1 : graph) :
      SafeReachable g → 0 ≤ src → src < 16 → src < g.g_nr_vertices →
      0 ≤ dst → dst < 16 → dst < g.g_nr_vertices →
      safe_call (parentOf g) src dst →
      edge_add (some g) src dst w = some (rc, some g1) → SafeReachable g1

/-- Capacity 4, then `edge_add` for the self-loop (3,3). -/
def loop_graph : graph := after_add (fresh_graph 4) 3 3 0

/-- The graph `two_pairs_graph` after `edge_add` for (1,3): stored parents
0 -> 0, 1 -> 0, 2 -> 2, 3 -> 0, and vertex 2 still owns its edge to 3. -/
def regraft_graph : graph := after_add two_pairs_graph 1 3 5

/-- Every edge stored in the bucket leads to a materialised vertex of the
bucket. -/
def edges_closed (ag : adjGroup) : Prop :=
  ∀ i v, ag.adj_list i = some v → ∀ e ∈ v.v_edge, slot_at ag e.e_data ≠ none

/-- A bucket whose slots all hold a stray non-NULL value, standing for the
indeterminate contents of freshly allocated memory. -/
def junk_group : adjGroup := ⟨fun _ => some ⟨99, 99, 99, 99, []⟩⟩

/-- The loop of `vertice_destroy`: the edges of the chain are unlinked and
freed from the head on; the result lists them in that order. -/
def vertice_destroy_chain : List edge → List edge
  | [] => []
  | e :: es => e :: vertice_destroy_chain es

/-- The function `vertice_destroy`: free every edge of the chain, then the
vertex.  The heap is not part of the model; the result records the edges freed
and the vertex freed. -/
def vertice_destroy (v : vertice) : List edge × vertice :=
  (vertice_destroy_chain v.v_edge, v)

/-- The inner loop of `graph_destroy` for the counter values `js`: every
non-NULL slot `j` is handed to `vertice_destroy`.  The result lists the records
of these calls, in order. -/
def destroy_slots (ag : adjGroup) : List Nat → List (List edge × vertice)
  | [] => []
  | j :: js =>
    match (slotIx j).bind ag.adj_list with
    | some v => vertice_destroy v :: destroy_slots ag js
    | none => destroy_slots ag js

/-- The outer loop of `graph_destroy` for the counter values `is`.  The state
is the graph, the inner counter `j` (set to 0 once, before the outer loop, and
never reset) and the records of the vertices destroyed so far.  A NULL bucket
pointer is skipped; otherwise the inner loop runs from the current `j` up to
`ADJ_GROUP_SZ`, the pointer is set to NULL and the bucket is freed. -/
def destroy_groups : graph → Nat → List (List edge × vertice) → List Nat →
    Option (graph × Nat × List (List edge × vertice))
  | g, j, fr, [] => some (g, j, fr)
  | g, j, fr, i :: is =>
    (groupIx i).bind fun k =>
      match g.g_adj_list_groups k with
      | none => destroy_groups g j fr is
      | some ag =>
        destroy_groups (setGroup g k none) (max j ADJ_GROUP_SZ)
          (fr ++ destroy_slots ag (List.range' j (ADJ_GROUP_SZ - j))) is

/-- The function `graph_destroy`: the graph after the call and the records of
the vertices it destroyed; `none` is undefined behaviour (the outer loop
reading past the bucket pointer array).  A NULL graph is left alone. -/
def graph_destroy (g : Option graph) : Option (Option graph × List (List edge × vertice)) :=
  match g with
  | none => some (none, [])
  | some g =>
    (destroy_groups g 0 [] (List.range g.g_nr_adj_list_groups.toNat)).map
      fun r => (some { r.1 with g_nr_vertices := 0 }, r.2.2)

/-- Run a sequence of `edge_add` calls `(src, dst, weight)` in order; `none` as
soon as a call has no defined result. -/
def run_adds : graph → List (Int × Int × Int) → Option graph
  | g, [] => some g
  | g, c :: cs =>
    match edge_add (some g) c.1 c.2.1 c.2.2 with
    | some (_, some g1) => run_adds g1 cs
    | _ => none

/-- The `(src, dst)` pairs of a sequence of calls. -/
def call_pairs (cs : List (Int × Int × Int)) : List (Int × Int) :=
  cs.map (fun c => (c.1, c.2.1))

/-- Two ids lie in the same connected component of the undirected graph whose
edges are the pairs `es`. -/
inductive connected (es : List (Int × Int)) : Int → Int → Prop
  | refl (a : Int) : connected es a a
  | edge (a b : Int) : (a, b) ∈ es → connected es a b
  | symm (a b : Int) : connected es a b → connected es b a
  | trans (a b c : Int) : connected es a b → connected es b c → connected es a c

/-- Every id on which the parent map is defined is connected to its parent. -/
def parents_connected (es : List (Int × Int)) (p : Int → Option Int) : Prop :=
  ∀ v q, p v = some q → connected es v q

/-- A bucket that holds the self-parented vertices 5 and 2, the connection
count of 2 being `INT_MAX`. -/
def full_count_group : adjGroup :=
  setSlot (setSlot emptyGroup 5 (some (vertice_create emptyGroup 5))) 2
    (some { vertice_create emptyGroup 2 with v_nr_connections := 2147483647 })

/-! ## Basic lemmas -/

theorem slotIx_some {a : Int} {i : Fin ADJ_GROUP_SZ} (h : slotIx a = some i) :
    0 ≤ a ∧ a < 16 ∧ ((i : Nat) : Int) = a := by
  unfold slotIx at h
  split at h
  · rename_i hr
    simp only [Option.some.injEq] at h
    subst h
    refine ⟨hr.1, hr.2, ?_⟩
    simp [Int.toNat_of_nonneg hr.1]
  · simp at h

theorem slotIx_of_range {a : Int} (h0 : 0 ≤ a) (h1 : a < 16) :
    ∃ i, slotIx a = some i := by
  unfold slotIx
  rw [dif_pos ⟨h0, h1⟩]
  exact ⟨_, rfl⟩

theorem slotIx_inj {a b : Int} {i : Fin ADJ_GROUP_SZ} (ha : slotIx a = some i)
    (hb : slotIx b = some i) : a = b := by
  have h1 := slotIx_some ha
  have h2 := slotIx_some hb
  omega

theorem slotIx_ne {a b : Int} {i j : Fin ADJ_GROUP_SZ} (ha : slotIx a = some i)
    (hb : slotIx b = some j) (hab : a ≠ b) : i ≠ j := by
  intro h
  subst h
  exact hab (slotIx_inj ha hb)

theorem groupIx_zero {a : Int} (h0 : 0 ≤ a) (h1 : a < 16) :
    groupIx (Int.tdiv a 16) = some 0 := by
  have : Int.tdiv a 16 = 0 := by
    rw [Int.tdiv_eq_ediv h0 (by norm_num)]; omega
  rw [this]; rfl

@[simp] theorem setSlot_same (ag : adjGroup) (i : Fin ADJ_GROUP_SZ) (v : Option vertice) :
    (setSlot ag i v).adj_list i = v := by
  simp [setSlot]

theorem setSlot_other (ag : adjGroup) {i k : Fin ADJ_GROUP_SZ} (v : Option vertice)
    (h : k ≠ i) : (setSlot ag i v).adj_list k = ag.adj_list k := by
  simp [setSlot, Function.update_noteq h]

theorem setSlot_apply (ag : adjGroup) (i k : Fin ADJ_GROUP_SZ) (v : Option vertice) :
    (setSlot ag i v).adj_list k = if k = i then v else ag.adj_list k := by
  simp [setSlot, Function.update_apply]

theorem adjGroup_ext {x y : adjGroup} (h : ∀ k, x.adj_list k = y.adj_list k) : x = y := by
  cases x; cases y; simp only [adjGroup.mk.injEq]; exact funext h

theorem setSlot_self (ag : adjGroup) (i : Fin ADJ_GROUP_SZ) (v : Option vertice)
    (h : ag.adj_list i = v) : setSlot ag i v = ag := by
  apply adjGroup_ext
  intro k
  rw [setSlot_apply]
  split
  · rename_i hk; rw [hk, h]
  · rfl

@[simp] theorem setGroup_same (g : graph) (k : Fin ADJ_GROUPS_NR) (ag : Option adjGroup) :
    (setGroup g k ag).g_adj_list_groups k = ag := by
  simp [setGroup]

theorem setGroup_self (g : graph) (k : Fin ADJ_GROUPS_NR) (ag : Option adjGroup)
    (h : g.g_adj_list_groups k = ag) : setGroup g k ag = g := by
  cases g
  simp only [setGroup, graph.mk.injEq, true_and]
  simp only at h
  rw [← h]
  exact Function.update_eq_self _ _

theorem vertice_find_some (ag : adjGroup) {v : Int} {i : Fin ADJ_GROUP_SZ}
    (h : slotIx v = some i) :
    vertice_find (some ag) v = some (some (i, materialise ag v i)) := by
  unfold vertice_find materialise
  simp only [h]
  cases ag.adj_list i <;> rfl

theorem materialise_slot (ag : adjGroup) (v : Int) (i k : Fin ADJ_GROUP_SZ) :
    (materialise ag v i).adj_list k =
      if k = i then some ((ag.adj_list i).getD (vertice_create ag v)) else ag.adj_list k := by
  unfold materialise
  cases h : ag.adj_list i with
  | none =>
    simp only [setSlot_apply, Option.getD_none]
  | some x =>
    simp only [Option.getD_some]
    split
    · rename_i hk; rw [hk, h]
    · rfl


theorem materialise_self (ag : adjGroup) (v : Int) (i : Fin ADJ_GROUP_SZ) :
    (materialise ag v i).adj_list i = some ((ag.adj_list i).getD (vertice_create ag v)) := by
  rw [materialise_slot, if_pos rfl]

theorem edge_add_bucket (g : graph) (ag : adjGroup) {src dst : Int} (w : Int)
    {i j : Fin ADJ_GROUP_SZ} (hg : g.g_adj_list_groups 0 = some ag)
    (hi : slotIx src = some i) (hj : slotIx dst = some j) :
    edge_add (some g) src dst w =
      (unionOf (before_union ag src dst w i j) src dst).map
        (fun ag3 => ((0 : Int), some (setGroup g 0 (some ag3)))) := by
  have hs := slotIx_some hi
  unfold edge_add
  simp only [groupIx_zero hs.1 hs.2.1, hg, vertice_find_some _ hi, materialise_self]
  have e1 : (_edge_add ((ag.adj_list i).getD (vertice_create ag src)) dst w).1 = 0 := rfl
  simp only [e1, if_true, vertice_find_some _ hj]
  have e2 : materialise (setSlot (materialise ag src i) i
      (some (_edge_add ((ag.adj_list i).getD (vertice_create ag src)) dst w).2)) dst j
      = before_union ag src dst w i j := by
    unfold before_union with_edge
    simp only [materialise_self]
  rw [e2]
  cases unionOf (before_union ag src dst w i j) src dst <;> rfl

theorem unionOf_eq (ag : adjGroup) {a b : Int} {ia ib : Fin ADJ_GROUP_SZ}
    {va vb : vertice} (hia : slotIx a = some ia) (hib : slotIx b = some ib)
    (hva : ag.adj_list ia = some va) (hvb : ag.adj_list ib = some vb) :
    unionOf ag a b = some (union_result ag a b ia ib va vb) := by
  unfold unionOf union_result
  simp only [hia, hib, hva, hvb]
  by_cases hc : va.v_parent = a ∧ vb.v_parent = b
  · simp only [hc, and_self, if_true]
    by_cases hlt : a < b
    · have hne : ia ≠ ib := slotIx_ne hia hib (by omega)
      simp only [hlt, if_true, hib, hvb, hia, setSlot_other _ _ hne, hva]
      simp [hc.1]
    · simp only [hlt, if_false, hia, hva, hib, setSlot_apply]
      by_cases he : ib = ia
      · simp only [he, if_true]
      · simp only [he, if_false, hvb]
  · simp only [hc, if_false]
    split_ifs <;> rfl

theorem slot_at_some {ag : adjGroup} {v : Int} {x : vertice} (h : slot_at ag v = some x) :
    ∃ i, slotIx v = some i ∧ ag.adj_list i = some x := by
  unfold slot_at at h
  cases hi : slotIx v with
  | none => simp [hi] at h
  | some i => exact ⟨i, rfl, by simpa [hi] using h⟩

theorem slot_at_of {ag : adjGroup} {v : Int} {i : Fin ADJ_GROUP_SZ} (hi : slotIx v = some i) :
    slot_at ag v = ag.adj_list i := by
  simp [slot_at, hi]

theorem slot_at_setSlot (ag : adjGroup) {a : Int} {i : Fin ADJ_GROUP_SZ} (x : Option vertice)
    (hi : slotIx a = some i) (v : Int) :
    slot_at (setSlot ag i x) v = if v = a then x else slot_at ag v := by
  by_cases hv : v = a
  · subst hv
    simp [slot_at, hi]
  · rw [if_neg hv]
    unfold slot_at
    cases hk : slotIx v with
    | none => rfl
    | some k =>
      simp only [Option.some_bind]
      exact setSlot_other _ _ (slotIx_ne hk hi hv)

theorem parent_at_setSlot (ag : adjGroup) {a : Int} {i : Fin ADJ_GROUP_SZ} (x : vertice)
    (hi : slotIx a = some i) (v : Int) :
    parent_at (setSlot ag i (some x)) v = if v = a then some x.v_parent else parent_at ag v := by
  unfold parent_at
  rw [slot_at_setSlot ag _ hi]
  split <;> rfl

theorem conns_at_setSlot (ag : adjGroup) {a : Int} {i : Fin ADJ_GROUP_SZ} (x : vertice)
    (hi : slotIx a = some i) (v : Int) :
    conns_at (setSlot ag i (some x)) v =
      if v = a then some x.v_nr_connections else conns_at ag v := by
  unfold conns_at
  rw [slot_at_setSlot ag _ hi]
  split <;> rfl

theorem edges_at_setSlot (ag : adjGroup) {a : Int} {i : Fin ADJ_GROUP_SZ} (x : vertice)
    (hi : slotIx a = some i) (v : Int) :
    edges_at (setSlot ag i (some x)) v = if v = a then some x.v_edge else edges_at ag v := by
  unfold edges_at
  rw [slot_at_setSlot ag _ hi]
  split <;> rfl

/-- Case 1 of `unionOf` with the counter as the machine holds it: when `a` and
`b` are both materialised and both self-parented, the call is defined, the
stored parent of `max a b` becomes `min a b`, the connection count `c` of
`min a b` becomes `wrap_int (c + 1)`, and every other vertex keeps its stored
parent and its connection count. -/
theorem unionOf_case1_wrap (ag : adjGroup) (a b : Int) (va vb : vertice)
    (ha : slot_at ag a = some va) (hb : slot_at ag b = some vb)
    (hpa : va.v_parent = a) (hpb : vb.v_parent = b) :
    ∃ ag1, unionOf ag a b = some ag1 ∧
      parent_at ag1 (max a b) = some (min a b) ∧
      conns_at ag1 (min a b) = (conns_at ag (min a b)).map (fun c => wrap_int (c + 1)) ∧
      (∀ v, v ≠ max a b → parent_at ag1 v = parent_at ag v) ∧
      (∀ v, v ≠ min a b → conns_at ag1 v = conns_at ag v) := by
  obtain ⟨ia, hia, hva⟩ := slot_at_some ha
  obtain ⟨ib, hib, hvb⟩ := slot_at_some hb
  refine ⟨_, unionOf_eq ag hia hib hva hvb, ?_⟩
  have pa : parent_at ag a = some a := by simp [parent_at, ha, hpa]
  have pb : parent_at ag b = some b := by simp [parent_at, hb, hpb]
  have ca : conns_at ag a = some va.v_nr_connections := by simp [conns_at, ha]
  have cb : conns_at ag b = some vb.v_nr_connections := by simp [conns_at, hb]
  unfold union_result
  rw [if_pos ⟨hpa, hpb⟩]
  by_cases hlt : a < b
  · have hmax : max a b = b := max_eq_right (le_of_lt hlt)
    have hmin : min a b = a := min_eq_left (le_of_lt hlt)
    have hne : b ≠ a := by omega
    rw [if_pos hlt, hmax, hmin]
    simp only [parent_at_setSlot _ _ hia, parent_at_setSlot _ _ hib,
      conns_at_setSlot _ _ hia, conns_at_setSlot _ _ hib]
    refine ⟨by simp [hne], by simp [ca], ?_, ?_⟩
    · intro v hv
      by_cases h2 : v = a
      · simp [h2, hpa, pa]
      · simp [h2, hv]
    · intro v hv
      by_cases h2 : v = b
      · simp [h2, hne, cb]
      · simp [h2, hv]
  · have hmax : max a b = a := max_eq_left (by omega)
    have hmin : min a b = b := min_eq_right (by omega)
    rw [if_neg hlt, hmax, hmin]
    simp only [parent_at_setSlot _ _ hia, parent_at_setSlot _ _ hib,
      conns_at_setSlot _ _ hia, conns_at_setSlot _ _ hib]
    by_cases he : a = b
    · subst he
      have hii : ib = ia := by
        rw [hia] at hib; exact (Option.some.inj hib).symm
      refine ⟨by simp [hii], by simp [hii, ca], ?_, ?_⟩
      · intro v hv; simp [hv]
      · intro v hv; simp [hv]
    · have hii : ib ≠ ia := slotIx_ne hib hia (Ne.symm he)
      refine ⟨by simp [he, hii, hpb], by simp [hii, cb], ?_, ?_⟩
      · intro v hv
        by_cases h2 : v = b
        · simp [h2, hii, hpb, pb]
        · simp [h2, hv]
      · intro v hv
        by_cases h2 : v = a
        · simp [h2, he, ca]
        · simp [h2, hv]


theorem wrap_int_succ (c : Int) (h0 : INT_MIN ≤ c) (h1 : c < INT_MAX) :
    wrap_int (c + 1) = c + 1 := by
  unfold INT_MIN at h0
  unfold INT_MAX at h1
  unfold wrap_int
  omega

/-- C6 (counterexample). In the bucket that holds the self-parented vertices 5
and 2, the connection count of 2 being `INT_MAX` = 2147483647, `unionOf(ag, 5,
2)` makes 2 the parent of 5 and leaves the count of 2 at -2147483648, not at
2147483648: the 32-bit counter wraps instead of growing by one. -/
theorem count_increment_wraps :
    parent_at full_count_group 5 = some 5 ∧ parent_at full_count_group 2 = some 2 ∧
      conns_at full_count_group (min 5 2) = some 2147483647 ∧
      ∃ ag1, unionOf full_count_group 5 2 = some ag1 ∧
        parent_at ag1 (max 5 2) = some (min 5 2) ∧
        conns_at ag1 (min 5 2) = some (-2147483648) ∧
        conns_at ag1 (min 5 2) ≠ (conns_at full_count_group (min 5 2)).map (fun c => c + 1) :=
  ⟨by rfl, by rfl, by rfl, _, by rfl, by rfl, by rfl, by decide⟩

/-- C6 (amended). Case 1 of `unionOf`: when `a` and `b` are both materialised
and both self-parented and the connection count of `min a b` is a 32-bit value
below `INT_MAX`, the call is defined, the stored parent of `max a b` becomes
`min a b`, the connection count of `min a b` grows by exactly one, and every
other vertex keeps its stored parent and its connection count. -/
theorem unionOf_case1 (ag : adjGroup) (a b : Int) (va vb : vertice)
    (ha : slot_at ag a = some va) (hb : slot_at ag b = some vb)
    (hpa : va.v_parent = a) (hpb : vb.v_parent = b)
    (hc : ∀ c, conns_at ag (min a b) = some c → INT_MIN ≤ c ∧ c < INT_MAX) :
    ∃ ag1, unionOf ag a b = some ag1 ∧
      parent_at ag1 (max a b) = some (min a b) ∧
      conns_at ag1 (min a b) = (conns_at ag (min a b)).map (fun c => c + 1) ∧
      (∀ v, v ≠ max a b → parent_at ag1 v = parent_at ag v) ∧
      (∀ v, v ≠ min a b → conns_at ag1 v = conns_at ag v) := by
  obtain ⟨ag1, h1, h2, h3, h4, h5⟩ := unionOf_case1_wrap ag a b va vb ha hb hpa hpb
  refine ⟨ag1, h1, h2, ?_, h4, h5⟩
  rw [h3]
  cases hx : conns_at ag (min a b) with
  | none => rfl
  | some c =>
    obtain ⟨c0, c1⟩ := hc c hx
    simp only [Option.map_some', wrap_int_succ c c0 c1]

/-- C6 (amended, witness). Merging self-parented 5 into self-parented 2 in a bucket that
holds just these two vertices. -/
theorem unionOf_case1_witness :
    ∃ ag1, unionOf (setSlot (setSlot emptyGroup 5 (some (vertice_create emptyGroup 5))) 2
        (some (vertice_create emptyGroup 2))) 5 2 = some ag1 ∧
      parent_at ag1 (max 5 2) = some (min 5 2) ∧
      conns_at ag1 (min 5 2) =
        (conns_at (setSlot (setSlot emptyGroup 5 (some (vertice_create emptyGroup 5))) 2
          (some (vertice_create emptyGroup 2))) (min 5 2)).map (fun c => c + 1) ∧
      (∀ v, v ≠ max 5 2 → parent_at ag1 v =
        parent_at (setSlot (setSlot emptyGroup 5 (some (vertice_create emptyGroup 5))) 2
          (some (vertice_create emptyGroup 2))) v) ∧
      (∀ v, v ≠ min 5 2 → conns_at ag1 v =
        conns_at (setSlot (setSlot emptyGroup 5 (some (vertice_create emptyGroup 5))) 2
          (some (vertice_create emptyGroup 2))) v) :=
  unionOf_case1 _ 5 2 (vertice_create emptyGroup 5) (vertice_create emptyGroup 2)
    (by rfl) (by rfl) (by rfl) (by rfl)
    (fun c hc => by
      have e : c = 0 := (Option.some.inj hc).symm
      subst e
      decide)

/-- C7. Case 2 of `unionOf`: when `a` and `b` are materialised, are not both
self-parented and have equal stored parents, the call is defined and returns
the bucket it was given: no parent, connection count or edge list changes. -/
theorem unionOf_case2 (ag : adjGroup) (a b : Int) (va vb : vertice)
    (ha : slot_at ag a = some va) (hb : slot_at ag b = some vb)
    (hns : ¬ (va.v_parent = a ∧ vb.v_parent = b))
    (heq : va.v_parent = vb.v_parent) :
    unionOf ag a b = some ag := by
  obtain ⟨ia, hia, hva⟩ := slot_at_some ha
  obtain ⟨ib, hib, hvb⟩ := slot_at_some hb
  rw [unionOf_eq ag hia hib hva hvb]
  unfold union_result
  rw [if_neg hns, if_pos heq]

theorem groupIx_some {a : Int} {k : Fin ADJ_GROUPS_NR} (h : groupIx a = some k) :
    0 ≤ a ∧ a < 8 ∧ ((k : Nat) : Int) = a := by
  unfold groupIx at h
  split at h
  · rename_i hr
    simp only [Option.some.injEq] at h
    subst h
    refine ⟨hr.1, hr.2, ?_⟩
    simp [Int.toNat_of_nonneg hr.1]
  · simp at h

theorem setGroup_apply (g : graph) (k j : Fin ADJ_GROUPS_NR) (ag : Option adjGroup) :
    (setGroup g k ag).g_adj_list_groups j = if j = k then ag else g.g_adj_list_groups j := by
  simp [setGroup, Function.update_apply]

theorem create_alloc_empty (is : List Nat) : ∀ (g g1 : graph),
    create_alloc (fun _ => emptyGroup) g is = some g1 →
    g1.g_nr_vertices = g.g_nr_vertices ∧
    ∀ k : Fin ADJ_GROUPS_NR, ((k : Nat) ∈ is ∨ g.g_adj_list_groups k = some emptyGroup) →
      g1.g_adj_list_groups k = some emptyGroup := by
  induction is with
  | nil =>
    intro g g1 h
    simp only [create_alloc, Option.some.injEq] at h
    subst h
    exact ⟨rfl, fun k hk => by simpa using hk⟩
  | cons i is ih =>
    intro g g1 h
    rw [create_alloc] at h
    cases hk : groupIx (i : Int) with
    | none => simp [hk] at h
    | some k0 =>
      simp only [hk, Option.some_bind] at h
      obtain ⟨h1, h2⟩ := ih _ _ h
      refine ⟨h1, ?_⟩
      intro k hkk
      apply h2
      rw [setGroup_apply]
      by_cases e : k = k0
      · right; simp [e]
      · rcases hkk with hm | hm
        · rcases List.mem_cons.mp hm with hm | hm
          · exfalso
            apply e
            have := (groupIx_some hk).2.2
            apply Fin.ext
            omega
          · left; exact hm
        · right; simp [e, hm]

theorem create_clear_slots_empty (i : Nat) (js : List Nat) : ∀ ag1,
    create_clear_slots i emptyGroup js = some ag1 → ag1 = emptyGroup := by
  induction js with
  | nil =>
    intro ag1 h
    simp only [create_clear_slots, Option.some.injEq] at h
    exact h.symm
  | cons j js ih =>
    intro ag1 h
    rw [create_clear_slots] at h
    cases hs : slotIx (i : Int) with
    | none => simp [hs] at h
    | some s =>
      simp only [hs, Option.some_bind] at h
      rw [setSlot_self emptyGroup s none rfl] at h
      exact ih _ h

theorem create_clear_empty (is : List Nat) : ∀ (g g1 : graph),
    create_clear g is = some g1 →
    g1.g_nr_vertices = g.g_nr_vertices ∧
    ∀ k : Fin ADJ_GROUPS_NR, g.g_adj_list_groups k = some emptyGroup →
      g1.g_adj_list_groups k = some emptyGroup := by
  induction is with
  | nil =>
    intro g g1 h
    simp only [create_clear, Option.some.injEq] at h
    subst h
    exact ⟨rfl, fun k hk => hk⟩
  | cons i is ih =>
    intro g g1 h
    rw [create_clear] at h
    cases hk : groupIx (i : Int) with
    | none => simp [hk] at h
    | some k0 =>
      simp only [hk, Option.some_bind] at h
      cases hag : g.g_adj_list_groups k0 with
      | none => simp [hag] at h
      | some ag =>
        simp only [hag, Option.some_bind] at h
        cases hc : create_clear_slots i ag (List.range ADJ_GROUP_SZ) with
        | none => simp [hc] at h
        | some ag1 =>
          simp only [hc, Option.some_bind] at h
          obtain ⟨h1, h2⟩ := ih _ _ h
          refine ⟨h1, ?_⟩
          intro k hkk
          apply h2
          rw [setGroup_apply]
          by_cases e : k = k0
          · subst e
            rw [hag] at hkk
            simp only [Option.some.injEq] at hkk
            subst hkk
            simp [create_clear_slots_empty _ _ _ hc]
          · simp [e, hkk]

/-- A fresh graph: the capacity is recorded, and for a positive capacity bucket 0
is allocated with every slot NULL. -/
theorem graph_create_fresh {g0 g : graph} {n rc : Int} {d : Bool}
    (h : graph_create (some g0) n d (fun _ => emptyGroup) = some (rc, some g)) :
    g.g_nr_vertices = n ∧ (0 < n → g.g_adj_list_groups 0 = some emptyGroup) := by
  unfold graph_create at h
  simp only at h
  generalize hnr : (if Int.tmod n 16 > 0 then Int.tdiv n 16 + 1 else Int.tdiv n 16) = nr at h
  cases ha : create_alloc (fun _ => emptyGroup)
      { g0 with g_directed := d, g_nr_vertices := n, g_nr_adj_list_groups := nr }
      (List.range nr.toNat) with
  | none => simp [ha] at h
  | some g2 =>
    simp only [ha] at h
    cases hc : create_clear g2 (List.range nr.toNat) with
    | none => simp [hc] at h
    | some g3 =>
      simp only [hc, Option.some.injEq, Prod.mk.injEq] at h
      obtain ⟨_, h3⟩ := h
      subst h3
      obtain ⟨a1, a2⟩ := create_alloc_empty _ _ _ ha
      obtain ⟨c1, c2⟩ := create_clear_empty _ _ _ hc
      refine ⟨by rw [c1, a1], ?_⟩
      intro hn
      have hpos : 0 < nr := by
        rw [← hnr, Int.tmod_eq_emod (le_of_lt hn) (by norm_num),
          Int.tdiv_eq_ediv (le_of_lt hn) (by norm_num)]
        split <;> omega
      apply c2
      apply a2
      left
      simp only [Fin.val_zero, List.mem_range]
      omega

/-- C1. End-to-end scenario of `main`: after `graph_create(&g, 12, false)` with
all slots empty and the fourteen `edge_add` calls, `is_related(&g, 9, 1)` is
defined and returns false, whatever the graph record held before. -/
theorem main_scenario_not_related (g0 : graph) :
    (main_graph g0).bind (fun g => is_related g 9 1) = some false := by
  rfl

/-- C2. Union correctness: on a fresh graph of capacity at least 4 with all
slots empty, the calls `edge_add` for (0,1), (1,2), (3,2) with any weights all
return 0 and afterwards `is_related(g, 0, 3)` returns true. -/
theorem union_chain_related (g0 g : graph) (n : Int) (d : Bool) (w1 w2 w3 : Int)
    (hn : 4 ≤ n)
    (hc : graph_create (some g0) n d (fun _ => emptyGroup) = some (0, some g)) :
    ∃ g1 g2 g3, edge_add (some g) 0 1 w1 = some (0, some g1) ∧
      edge_add (some g1) 1 2 w2 = some (0, some g2) ∧
      edge_add (some g2) 3 2 w3 = some (0, some g3) ∧
      is_related (some g3) 0 3 = some true := by
  have hg := (graph_create_fresh hc).2 (by omega)
  have e1 := edge_add_bucket g emptyGroup w1 hg (by rfl : slotIx 0 = some 0)
    (by rfl : slotIx 1 = some 1)
  have e2 := edge_add_bucket (setGroup g 0 (some
      ((unionOf (before_union emptyGroup 0 1 w1 0 1) 0 1).getD emptyGroup))) _ w2
    (setGroup_same _ _ _) (by rfl : slotIx 1 = some 1) (by rfl : slotIx 2 = some 2)
  have e3 := edge_add_bucket (setGroup (setGroup g 0 (some
      ((unionOf (before_union emptyGroup 0 1 w1 0 1) 0 1).getD emptyGroup))) 0 (some
      ((unionOf (before_union ((unionOf (before_union emptyGroup 0 1 w1 0 1) 0 1).getD
        emptyGroup) 1 2 w2 1 2) 1 2).getD emptyGroup))) _ w3
    (setGroup_same _ _ _) (by rfl : slotIx 3 = some 3) (by rfl : slotIx 2 = some 2)
  exact ⟨_, _, _, e1.trans rfl, e2.trans rfl, e3.trans rfl, rfl⟩

/-- C2 (witness). Capacity 4, all weights 1. -/
theorem union_chain_related_witness :
    ∃ g1 g2 g3, edge_add (some (fresh_graph 4)) 0 1 1 = some (0, some g1) ∧
      edge_add (some g1) 1 2 1 = some (0, some g2) ∧
      edge_add (some g2) 3 2 1 = some (0, some g3) ∧
      is_related (some g3) 0 3 = some true :=
  union_chain_related blank_graph (fresh_graph 4) 4 false 1 1 1 (by decide) (by rfl)

/-- C7 (witness). Vertices 0 and 1 with stored parent 0: the union of 0 and 1
changes nothing. -/
theorem unionOf_case2_witness :
    unionOf (setSlot (setSlot emptyGroup 0 (some (vertice_create emptyGroup 0))) 1
        (some { vertice_create emptyGroup 1 with v_parent := 0 })) 0 1 =
      some (setSlot (setSlot emptyGroup 0 (some (vertice_create emptyGroup 0))) 1
        (some { vertice_create emptyGroup 1 with v_parent := 0 })) :=
  unionOf_case2 _ 0 1 (vertice_create emptyGroup 0)
    { vertice_create emptyGroup 1 with v_parent := 0 } (by rfl) (by rfl) (by decide) (by rfl)

theorem before_union_slot (ag : adjGroup) (src dst w : Int) (i j k : Fin ADJ_GROUP_SZ) :
    (before_union ag src dst w i j).adj_list k =
      if k = i then
        some (_edge_add ((ag.adj_list i).getD (vertice_create ag src)) dst w).2
      else if k = j then some ((ag.adj_list j).getD (vertice_create ag dst))
      else ag.adj_list k := by
  unfold before_union with_edge
  simp only [materialise_self]
  rw [materialise_slot]
  by_cases hki : k = i
  · subst hki
    by_cases hkj : k = j
    · subst hkj
      simp
    · simp [hkj]
  · by_cases hkj : k = j
    · subst hkj
      have hji : i ≠ k := fun h => hki h.symm
      simp [hki, setSlot_apply, materialise_slot, hji]
      rfl
    · simp [hki, hkj, setSlot_apply, materialise_slot]

theorem union_result_edges (ag : adjGroup) (a b : Int) (ia ib : Fin ADJ_GROUP_SZ)
    (va vb : vertice) (hva : ag.adj_list ia = some va) (hvb : ag.adj_list ib = some vb)
    (k : Fin ADJ_GROUP_SZ) :
    ((union_result ag a b ia ib va vb).adj_list k).map (fun x => x.v_edge) =
      (ag.adj_list k).map (fun x => x.v_edge) := by
  unfold union_result
  split_ifs <;> simp only [setSlot_apply] <;> split_ifs <;> simp_all

theorem edge_chain_add_idem (l : List edge) (d w w2 : Int) :
    edge_chain_add (edge_chain_add l d w) d w2 = edge_chain_add l d w := by
  induction l with
  | nil => simp [edge_chain_add]
  | cons e es ih =>
    by_cases h : e.e_data = d
    · simp [edge_chain_add, h]
    · simp [edge_chain_add, h, ih]

theorem edge_chain_add_present (l : List edge) (d w : Int)
    (h : ∃ e ∈ l, e.e_data = d) : edge_chain_add l d w = l := by
  induction l with
  | nil => simp at h
  | cons e es ih =>
    by_cases he : e.e_data = d
    · simp [edge_chain_add, he]
    · have : ∃ x ∈ es, x.e_data = d := by
        obtain ⟨x, hx, hxd⟩ := h
        rcases List.mem_cons.mp hx with hx | hx
        · subst hx; exact absurd hxd he
        · exact ⟨x, hx, hxd⟩
      simp [edge_chain_add, he, ih this]

theorem edge_add_null_bucket (g : graph) {src : Int} (dst w : Int)
    (h0 : 0 ≤ src) (h1 : src < 16) (hg : g.g_adj_list_groups 0 = none) :
    edge_add (some g) src dst w = some (-ENOMEM, some g) := by
  unfold edge_add
  simp only [groupIx_zero h0 h1, hg, vertice_find]

theorem edge_add_result (g : graph) (ag : adjGroup) {src dst : Int} (w : Int)
    {i j : Fin ADJ_GROUP_SZ} (hg : g.g_adj_list_groups 0 = some ag)
    (hi : slotIx src = some i) (hj : slotIx dst = some j) :
    ∃ va vb, (before_union ag src dst w i j).adj_list i = some va ∧
      (before_union ag src dst w i j).adj_list j = some vb ∧
      edge_add (some g) src dst w = some (0, some (setGroup g 0 (some
        (union_result (before_union ag src dst w i j) src dst i j va vb)))) := by
  have hva : ∃ va, (before_union ag src dst w i j).adj_list i = some va := by
    rw [before_union_slot, if_pos rfl]; exact ⟨_, rfl⟩
  have hvb : ∃ vb, (before_union ag src dst w i j).adj_list j = some vb := by
    rw [before_union_slot]
    split
    · exact ⟨_, rfl⟩
    · rw [if_pos rfl]; exact ⟨_, rfl⟩
  obtain ⟨va, hva⟩ := hva
  obtain ⟨vb, hvb⟩ := hvb
  refine ⟨va, vb, hva, hvb, ?_⟩
  rw [edge_add_bucket g ag w hg hi hj, unionOf_eq _ hi hj hva hvb]
  rfl

theorem vertex_at_bucket (g : graph) {v : Int} {i : Fin ADJ_GROUP_SZ}
    (hi : slotIx v = some i) :
    vertex_at g v = (g.g_adj_list_groups 0).bind (fun ag => ag.adj_list i) := by
  have hs := slotIx_some hi
  unfold vertex_at
  simp only [groupIx_zero hs.1 hs.2.1, slot_at, hi, Option.some_bind]

/-- C9. Idempotence of edge insertion: for every graph state and ids `a`, `b`
in `[0, 16)`, two calls `edge_add(g, a, b, w)` in a row are both defined, and
the edge list of `a` after the second call is the edge list of `a` after the
first (same edges in the same order). -/
theorem edge_add_twice_same_edges (g : graph) (a b w : Int)
    (ha0 : 0 ≤ a) (ha1 : a < 16) (hb0 : 0 ≤ b) (hb1 : b < 16) :
    ∃ rc1 g1 rc2 g2, edge_add (some g) a b w = some (rc1, some g1) ∧
      edge_add (some g1) a b w = some (rc2, some g2) ∧
      edgesOf g2 a = edgesOf g1 a := by
  obtain ⟨i, hi⟩ := slotIx_of_range ha0 ha1
  obtain ⟨j, hj⟩ := slotIx_of_range hb0 hb1
  cases hg : g.g_adj_list_groups 0 with
  | none =>
    exact ⟨_, _, _, _, edge_add_null_bucket g b w ha0 ha1 hg,
      edge_add_null_bucket g b w ha0 ha1 hg, rfl⟩
  | some ag =>
    obtain ⟨va, vb, hva, hvb, h1⟩ := edge_add_result g ag w hg hi hj
    obtain ⟨va2, vb2, hva2, hvb2, h2⟩ :=
      edge_add_result (setGroup g 0 (some (union_result (before_union ag a b w i j) a b i j va vb)))
        _ w (setGroup_same _ _ _) hi hj
    refine ⟨_, _, _, _, h1, h2, ?_⟩
    unfold edgesOf
    rw [vertex_at_bucket _ hi, vertex_at_bucket _ hi]
    simp only [setGroup_same, Option.some_bind]
    rw [union_result_edges _ _ _ _ _ _ _ hva2 hvb2, before_union_slot, if_pos rfl]
    have e1 := union_result_edges _ a b i j va vb hva hvb i
    rw [before_union_slot, if_pos rfl] at e1
    cases hx : (union_result (before_union ag a b w i j) a b i j va vb).adj_list i with
    | none => rw [hx] at e1; simp at e1
    | some x =>
      rw [hx] at e1
      simp only [Option.map_some', Option.some.injEq, _edge_add] at e1
      simp only [Option.getD_some, Option.map_some', _edge_add, e1, edge_chain_add_idem]

/-- C9 (witness). The edge (2, 5) added twice to the fresh graph of capacity
12. -/
theorem edge_add_twice_same_edges_witness :
    ∃ rc1 g1 rc2 g2, edge_add (some (fresh_graph 12)) 2 5 7 = some (rc1, some g1) ∧
      edge_add (some g1) 2 5 7 = some (rc2, some g2) ∧
      edgesOf g2 2 = edgesOf g1 2 :=
  edge_add_twice_same_edges (fresh_graph 12) 2 5 7 (by decide) (by decide) (by decide)
    (by decide)

theorem parentOf_bucket (g : graph) {v : Int} {i : Fin ADJ_GROUP_SZ}
    (hi : slotIx v = some i) :
    parentOf g v =
      (g.g_adj_list_groups 0).bind (fun ag => (ag.adj_list i).map (fun x => x.v_parent)) := by
  unfold parentOf
  rw [vertex_at_bucket g hi]
  cases g.g_adj_list_groups 0 <;> rfl

theorem vertex_at_out (g : graph) {v : Int} (hi : slotIx v = none) : vertex_at g v = none := by
  unfold vertex_at
  cases groupIx (Int.tdiv v 16) with
  | none => rfl
  | some k =>
    simp only [slot_at, hi, Option.none_bind]
    cases g.g_adj_list_groups k <;> rfl

theorem parentOf_out (g : graph) {v : Int} (hi : slotIx v = none) : parentOf g v = none := by
  unfold parentOf
  rw [vertex_at_out g hi]
  rfl

theorem union_result_parent (ag : adjGroup) (a b : Int) (ia ib : Fin ADJ_GROUP_SZ)
    (va vb : vertice) (hia : slotIx a = some ia) (hib : slotIx b = some ib)
    (hva : ag.adj_list ia = some va) (hvb : ag.adj_list ib = some vb)
    (v : Int) :
    parent_at (union_result ag a b ia ib va vb) v = union_map (parent_at ag) a b v := by
  have pa : parent_at ag a = some va.v_parent := by
    simp [parent_at, slot_at_of hia, hva]
  have pb : parent_at ag b = some vb.v_parent := by
    simp [parent_at, slot_at_of hib, hvb]
  unfold union_result union_map
  simp only [pa, pb, Option.some.injEq]
  by_cases hc : va.v_parent = a ∧ vb.v_parent = b
  · simp only [hc, and_self, if_true]
    by_cases hlt : a < b
    · simp only [hlt, if_true, parent_at_setSlot _ _ hia, parent_at_setSlot _ _ hib,
        Function.update_apply]
      by_cases h1 : v = a
      · have : ¬ a = b := by omega
        subst h1
        simp [this, pa, hc.1]
      · simp [h1]
    · simp only [hlt, if_false, parent_at_setSlot _ _ hia, parent_at_setSlot _ _ hib,
        Function.update_apply]
      by_cases h1 : v = b
      · subst h1
        by_cases h2 : ib = ia
        · have : v = a := slotIx_inj (h2 ▸ hib) hia
          simp [h2, this]
        · have : ¬ v = a := fun e => h2 (by rw [e, hia] at hib; exact (Option.some.inj hib).symm)
          simp [h2, this, pb, hc.2]
      · simp [h1]
  · simp only [hc, if_false]
    by_cases h2 : va.v_parent = vb.v_parent
    · simp only [h2, if_true]
    · simp only [h2, if_false]
      by_cases h3 : va.v_parent = a
      · simp only [h3, if_true, parent_at_setSlot _ _ hia, Function.update_apply, pb]
      · simp only [h3, if_false, parent_at_setSlot _ _ hib, Function.update_apply, pa]

theorem before_union_parent (ag : adjGroup) (src dst w : Int) {i j : Fin ADJ_GROUP_SZ}
    (hi : slotIx src = some i) (hj : slotIx dst = some j) (v : Int) :
    parent_at (before_union ag src dst w i j) v = mat_map (parent_at ag) src dst v := by
  unfold mat_map parent_at
  cases hk : slotIx v with
  | none =>
    have h1 : v ≠ src := fun e => by rw [e, hi] at hk; simp at hk
    have h2 : v ≠ dst := fun e => by rw [e, hj] at hk; simp at hk
    simp [slot_at, hk, h1, h2]
  | some k =>
    simp only [slot_at_of hk, before_union_slot]
    by_cases h1 : v = src
    · have : k = i := by rw [h1, hi] at hk; exact (Option.some.inj hk).symm
      subst h1
      subst this
      cases hx : ag.adj_list k <;> simp [_edge_add, vertice_create]
    · have hki : k ≠ i := slotIx_ne hk hi h1
      by_cases h2 : v = dst
      · have : k = j := by rw [h2, hj] at hk; exact (Option.some.inj hk).symm
        subst h2
        subst this
        cases hx : ag.adj_list k <;> simp [hki, vertice_create]
      · have hkj : k ≠ j := slotIx_ne hk hj h2
        simp [h1, h2, hki, hkj]

theorem parentOf_setGroup (g : graph) (ag : adjGroup) (v : Int) :
    parentOf (setGroup g 0 (some ag)) v = parent_at ag v := by
  cases hk : slotIx v with
  | none =>
    rw [parentOf_out _ hk]
    simp [parent_at, slot_at, hk]
  | some k =>
    rw [parentOf_bucket _ hk]
    simp [parent_at, slot_at, hk]

theorem parentOf_of_bucket (g : graph) (ag : adjGroup) (hg : g.g_adj_list_groups 0 = some ag)
    (v : Int) : parentOf g v = parent_at ag v := by
  rw [← parentOf_setGroup g ag v, setGroup_self g 0 (some ag) hg]

/-- The effect of `edge_add` on the parent map: with bucket 0 allocated and both
ids in `[0, 16)`, the call returns 0 and the stored parents afterwards are
`next_parent` of the stored parents before. -/
theorem edge_add_parents (g : graph) (ag : adjGroup) {src dst : Int} (w : Int)
    (hg : g.g_adj_list_groups 0 = some ag)
    (hs0 : 0 ≤ src) (hs1 : src < 16) (hd0 : 0 ≤ dst) (hd1 : dst < 16) :
    ∃ ag1, edge_add (some g) src dst w = some (0, some (setGroup g 0 (some ag1))) ∧
      parentOf (setGroup g 0 (some ag1)) = next_parent (parentOf g) src dst := by
  obtain ⟨i, hi⟩ := slotIx_of_range hs0 hs1
  obtain ⟨j, hj⟩ := slotIx_of_range hd0 hd1
  obtain ⟨va, vb, hva, hvb, h1⟩ := edge_add_result g ag w hg hi hj
  refine ⟨_, h1, ?_⟩
  funext v
  rw [parentOf_setGroup, union_result_parent _ _ _ _ _ _ _ hi hj hva hvb]
  unfold next_parent
  have e1 : parent_at (before_union ag src dst w i j) = mat_map (parent_at ag) src dst :=
    funext (before_union_parent ag src dst w hi hj)
  have e2 : parentOf g = parent_at ag := funext (parentOf_of_bucket g ag hg)
  rw [e1, e2]

theorem reachable_chain_graph : Reachable chain_graph :=
  Reachable.step (after_add (fresh_graph 3) 1 2 0) 0 1 0 0 chain_graph
    (Reachable.step (fresh_graph 3) 1 2 0 0 (after_add (fresh_graph 3) 1 2 0)
      (Reachable.fresh blank_graph 3 false (fresh_graph 3) (by rfl))
      (by decide) (by decide) (by decide) (by decide) (by decide) (by decide) (by rfl))
    (by decide) (by decide) (by decide) (by decide) (by decide) (by decide) (by rfl)

theorem reachable_cycle_graph : Reachable cycle_graph :=
  Reachable.step chain_graph 0 2 0 0 cycle_graph reachable_chain_graph
    (by decide) (by decide) (by decide) (by decide) (by decide) (by decide) (by rfl)

theorem reachable_two_pairs_graph : Reachable two_pairs_graph :=
  Reachable.step (after_add (fresh_graph 4) 0 1 0) 2 3 0 0 two_pairs_graph
    (Reachable.step (fresh_graph 4) 0 1 0 0 (after_add (fresh_graph 4) 0 1 0)
      (Reachable.fresh blank_graph 4 false (fresh_graph 4) (by rfl))
      (by decide) (by decide) (by decide) (by decide) (by decide) (by decide) (by rfl))
    (by decide) (by decide) (by decide) (by decide) (by decide) (by decide) (by rfl)

/-- C3 (counterexample). In the reachable state with stored parents 0 -> 0,
1 -> 0, 2 -> 1 the parent chains of 2 and 0 both terminate at the
representative 0, yet `is_related(g, 2, 0)` returns false. -/
theorem related_iff_same_rep_fails :
    Reachable chain_graph ∧ vertex_at chain_graph 2 ≠ none ∧ vertex_at chain_graph 0 ≠ none ∧
      ¬ (is_related (some chain_graph) 2 0 = some true ↔
          ∃ r, ends_at chain_graph 2 r ∧ ends_at chain_graph 0 r) := by
  refine ⟨reachable_chain_graph, by decide, by decide, ?_⟩
  intro h
  have h1 : is_related (some chain_graph) 2 0 = some true :=
    h.mpr ⟨0, ⟨⟨2, by rfl⟩, by rfl⟩, ⟨⟨0, by rfl⟩, by rfl⟩⟩
  have h2 : is_related (some chain_graph) 2 0 = some false := by rfl
  rw [h2] at h1
  exact absurd h1 (by decide)

theorem vertex_at_some {g : graph} {v : Int} {x : vertice} (h : vertex_at g v = some x) :
    ∃ i ag, slotIx v = some i ∧ g.g_adj_list_groups 0 = some ag ∧ ag.adj_list i = some x := by
  cases hi : slotIx v with
  | none => rw [vertex_at_out g hi] at h; simp at h
  | some i =>
    rw [vertex_at_bucket g hi] at h
    cases hg : g.g_adj_list_groups 0 with
    | none => rw [hg] at h; simp at h
    | some ag =>
      rw [hg] at h
      exact ⟨i, ag, rfl, rfl, by simpa using h⟩

theorem is_related_eq (g : graph) {a b : Int} {va vb : vertice}
    (ha : vertex_at g a = some va) (hb : vertex_at g b = some vb) :
    is_related (some g) a b = some (decide (va.v_parent = vb.v_parent)) := by
  obtain ⟨i, ag, hi, hg, hva⟩ := vertex_at_some ha
  obtain ⟨j, ag2, hj, hg2, hvb⟩ := vertex_at_some hb
  rw [hg] at hg2
  simp only [Option.some.injEq] at hg2
  subst hg2
  have hs := slotIx_some hi
  unfold is_related
  simp only [groupIx_zero hs.1 hs.2.1, hg, hi, hj, hva, hvb]

theorem ends_at_of_same_parent (g : graph) {a b p r : Int}
    (ha : parentOf g a = some p) (hb : parentOf g b = some p)
    (h : ends_at g a r) : ends_at g b r := by
  obtain ⟨⟨k, hk⟩, hr⟩ := h
  refine ⟨?_, hr⟩
  cases k with
  | zero =>
    simp only [follow, Option.some.injEq] at hk
    subst hk
    rw [ha] at hr
    simp only [Option.some.injEq] at hr
    subst hr
    exact ⟨1, by simp [follow, hb]⟩
  | succ k =>
    refine ⟨k + 1, ?_⟩
    simp only [follow, ha, hb, Option.some_bind] at hk ⊢
    exact hk

/-- C3 (amended). In every graph state (reachable or not), for materialised
vertices `a` and `b`, `is_related(g, a, b)` is defined and returns true exactly
when the stored parents of `a` and `b` are equal; and when they are equal the
parent chain of `a` terminates at a representative `r` exactly when the chain
of `b` does. -/
theorem is_related_iff_same_parent (g : graph) (a b : Int) (va vb : vertice)
    (ha : vertex_at g a = some va) (hb : vertex_at g b = some vb) :
    is_related (some g) a b = some (decide (va.v_parent = vb.v_parent)) ∧
      (is_related (some g) a b = some true ↔ parentOf g a = parentOf g b) ∧
      (is_related (some g) a b = some true → ∀ r, ends_at g a r ↔ ends_at g b r) := by
  have pa : parentOf g a = some va.v_parent := by simp [parentOf, ha]
  have pb : parentOf g b = some vb.v_parent := by simp [parentOf, hb]
  have e := is_related_eq g ha hb
  refine ⟨e, ?_, ?_⟩
  · rw [e, pa, pb]
    simp
  · intro h r
    rw [e] at h
    simp only [Option.some.injEq, decide_eq_true_eq] at h
    rw [h] at pa
    exact ⟨ends_at_of_same_parent g pa pb, ends_at_of_same_parent g pb pa⟩

/-- C3 (amended, witness). Vertices 1 and 0 of the chain state. -/
theorem is_related_iff_same_parent_witness :
    is_related (some chain_graph) 1 0 = some (decide ((0 : Int) = 0)) ∧
      (is_related (some chain_graph) 1 0 = some true ↔
        parentOf chain_graph 1 = parentOf chain_graph 0) ∧
      (is_related (some chain_graph) 1 0 = some true →
        ∀ r, ends_at chain_graph 1 r ↔ ends_at chain_graph 0 r) :=
  is_related_iff_same_parent chain_graph 1 0
    ⟨1, 1, 0, 1, [⟨2, 0, none⟩]⟩ ⟨0, 0, 0, 1, [⟨1, 0, none⟩]⟩ (by rfl) (by rfl)

theorem mat_map_of_some (p : Int → Option Int) {a b : Int}
    (ha : p a ≠ none) (hb : p b ≠ none) : mat_map p a b = p := by
  funext v
  unfold mat_map
  split
  · rename_i h
    rcases h with h | h
    · subst h
      cases hx : p v with
      | none => exact absurd hx ha
      | some x => rfl
    · subst h
      cases hx : p v with
      | none => exact absurd hx hb
      | some x => rfl
  · rfl

/-- C5 (counterexample). In the reachable state with stored parents 0 -> 0,
1 -> 0, 2 -> 1 the chains of 0 and 2 terminate at the same representative 0,
and `edge_add(g, 0, 2, 0)` changes the stored parent of 0 from 0 to 1. -/
theorem shared_rep_add_changes_parent :
    Reachable chain_graph ∧ ends_at chain_graph 0 0 ∧ ends_at chain_graph 2 0 ∧
      edge_add (some chain_graph) 0 2 0 = some (0, some cycle_graph) ∧
      parentOf chain_graph 0 = some 0 ∧ parentOf cycle_graph 0 = some 1 :=
  ⟨reachable_chain_graph, ⟨⟨0, by rfl⟩, by rfl⟩, ⟨⟨2, by rfl⟩, by rfl⟩, by rfl, by rfl, by rfl⟩

/-- C5 (amended). In every graph state, for materialised vertices `a` and `b`
whose stored parents are equal, `edge_add(g, a, b, w)` returns 0 and leaves the
stored parent of every vertex unchanged. -/
theorem same_parent_add_keeps_parents (g : graph) (a b w : Int) (va vb : vertice)
    (ha : vertex_at g a = some va) (hb : vertex_at g b = some vb)
    (heq : va.v_parent = vb.v_parent) :
    ∃ g1, edge_add (some g) a b w = some (0, some g1) ∧
      ∀ v, parentOf g1 v = parentOf g v := by
  obtain ⟨i, ag, hi, hg, hva⟩ := vertex_at_some ha
  obtain ⟨j, ag2, hj, hg2, hvb⟩ := vertex_at_some hb
  have hsa := slotIx_some hi
  have hsb := slotIx_some hj
  obtain ⟨ag1, h1, h2⟩ := edge_add_parents g ag w hg hsa.1 hsa.2.1 hsb.1 hsb.2.1
  refine ⟨_, h1, ?_⟩
  intro v
  rw [h2]
  have pa : parentOf g a = some va.v_parent := by simp [parentOf, ha]
  have pb : parentOf g b = some vb.v_parent := by simp [parentOf, hb]
  unfold next_parent
  rw [mat_map_of_some _ (by rw [pa]; simp) (by rw [pb]; simp)]
  unfold union_map
  by_cases hc : parentOf g a = some a ∧ parentOf g b = some b
  · rw [if_pos hc]
    have e1 : va.v_parent = a := by
      have := hc.1; rw [pa] at this; exact Option.some.inj this
    have e2 : vb.v_parent = b := by
      have := hc.2; rw [pb] at this; exact Option.some.inj this
    have hab : a = b := by rw [← e1, ← e2, heq]
    subst hab
    simp only [lt_self_iff_false, if_false, Function.update_apply]
    split
    · rename_i hv; rw [hv, hc.1]
    · rfl
  · rw [if_neg hc, if_pos (by rw [pa, pb, heq])]

/-- C5 (amended, witness). Vertices 1 and 0 of the chain state both store
parent 0. -/
theorem same_parent_add_keeps_parents_witness :
    ∃ g1, edge_add (some chain_graph) 1 0 5 = some (0, some g1) ∧
      ∀ v, parentOf g1 v = parentOf chain_graph v :=
  same_parent_add_keeps_parents chain_graph 1 0 5
    ⟨1, 1, 0, 1, [⟨2, 0, none⟩]⟩ ⟨0, 0, 0, 1, [⟨1, 0, none⟩]⟩ (by rfl) (by rfl) (by rfl)

theorem mat_map_src (P : Int → Option Int) (src dst : Int) :
    mat_map P src dst src = some ((P src).getD src) := by
  simp [mat_map]

theorem mat_map_dst (P : Int → Option Int) (src dst : Int) :
    mat_map P src dst dst = some ((P dst).getD dst) := by
  simp [mat_map]

theorem mat_map_keep (P : Int → Option Int) (src dst : Int) {v p : Int} (hv : P v = some p) :
    mat_map P src dst v = some p := by
  unfold mat_map
  split <;> simp [hv]

theorem next_parent_attached (P : Int → Option Int) (src dst v p : Int)
    (hv : P v = some p) (hne : p ≠ v) :
    (v ≠ dst → next_parent P src dst v = some p) ∧
    (∀ q, v = dst → P src = some q → q ≠ src → q ≠ p → next_parent P src dst v = some q) ∧
    ((P src = none ∨ P src = some src ∨ P src = some p) →
      next_parent P src dst v = some p) := by
  have hm := mat_map_keep P src dst hv
  have hs := mat_map_src P src dst
  have hd := mat_map_dst P src dst
  have hvs : mat_map P src dst src = some src → v ≠ src := by
    intro h e
    subst e
    rw [hm] at h
    exact hne (Option.some.inj h)
  have hvd : mat_map P src dst dst = some dst → v ≠ dst := by
    intro h e
    subst e
    rw [hm] at h
    exact hne (Option.some.inj h)
  unfold next_parent union_map
  by_cases hc : mat_map P src dst src = some src ∧ mat_map P src dst dst = some dst
  · rw [if_pos hc]
    have h1 := hvs hc.1
    have h2 := hvd hc.2
    have h3 : v ≠ (if src < dst then dst else src) := by split <;> assumption
    rw [Function.update_noteq h3, hm]
    exact ⟨fun _ => rfl, fun q e => absurd e h2, fun _ => rfl⟩
  · rw [if_neg hc]
    by_cases h2 : mat_map P src dst src = mat_map P src dst dst
    · rw [if_pos h2, hm]
      refine ⟨fun _ => rfl, ?_, fun _ => rfl⟩
      intro q e hq hq1 hq2
      subst e
      rw [hs, hm, hq] at h2
      exact absurd (Option.some.inj h2) hq2
    · rw [if_neg h2]
      by_cases h3 : mat_map P src dst src = some src
      · rw [if_pos h3, Function.update_noteq (hvs h3), hm]
        refine ⟨fun _ => rfl, ?_, fun _ => rfl⟩
        intro q e hq hq1 hq2
        rw [hs, hq] at h3
        exact absurd (Option.some.inj h3) hq1
      · rw [if_neg h3]
        refine ⟨?_, ?_, ?_⟩
        · intro hvd2
          rw [Function.update_noteq hvd2, hm]
        · intro q e hq hq1 hq2
          subst e
          rw [Function.update_same, hs, hq]
          rfl
        · intro h
          by_cases e : v = dst
          · exfalso
            subst e
            rcases h with h | h | h
            · apply h3; rw [hs, h]; rfl
            · apply h3; rw [hs, h]; rfl
            · apply h2; rw [hs, hm, h]; rfl
          · rw [Function.update_noteq e, hm]

/-- C8 (failing input). In the reachable state with stored parents 0 -> 0,
1 -> 0, 2 -> 2, 3 -> 2, vertex 3 is attached to 2 and vertex 1 to 0; the call
`edge_add(g, 1, 3, 5)` returns 0 and redirects the attached vertex 3 to 0. -/
theorem attached_vertex_redirected :
    Reachable two_pairs_graph ∧ parentOf two_pairs_graph 3 = some 2 ∧
      edge_add (some two_pairs_graph) 1 3 5 = some (0, some (after_add two_pairs_graph 1 3 5)) ∧
      parentOf (after_add two_pairs_graph 1 3 5) 3 = some 0 :=
  ⟨reachable_two_pairs_graph, by rfl, by rfl, by rfl⟩

/-- What `edge_add` does to attached vertices. In every graph state and for
every `edge_add(g, src, dst, w)` with ids in `[0, 16)` the call is defined, and
a vertex `v` that is attached before the call (stored parent `p` differs from
`v`) keeps its stored parent if `v` is not `dst`; `dst` itself keeps it unless
`src` is attached to some `q` other than `p`, and then the stored parent of
`dst` becomes `q`. -/
theorem attached_parent_after_add (g : graph) (src dst w : Int)
    (hs0 : 0 ≤ src) (hs1 : src < 16) (hd0 : 0 ≤ dst) (hd1 : dst < 16) :
    ∃ rc g1, edge_add (some g) src dst w = some (rc, some g1) ∧
      ∀ v p, parentOf g v = some p → p ≠ v →
        (v ≠ dst → parentOf g1 v = some p) ∧
        (∀ q, v = dst → parentOf g src = some q → q ≠ src → q ≠ p →
          parentOf g1 v = some q) ∧
        ((parentOf g src = none ∨ parentOf g src = some src ∨ parentOf g src = some p) →
          parentOf g1 v = some p) := by
  cases hg : g.g_adj_list_groups 0 with
  | none =>
    refine ⟨_, _, edge_add_null_bucket g dst w hs0 hs1 hg, ?_⟩
    intro v p hv hne
    refine ⟨fun _ => hv, ?_, fun _ => hv⟩
    intro q _ hq
    exfalso
    obtain ⟨i, hi⟩ := slotIx_of_range hs0 hs1
    rw [parentOf_bucket g hi, hg] at hq
    simp at hq
  | some ag =>
    obtain ⟨ag1, h1, h2⟩ := edge_add_parents g ag w hg hs0 hs1 hd0 hd1
    refine ⟨_, _, h1, ?_⟩
    intro v p hv hne
    rw [h2]
    exact next_parent_attached (parentOf g) src dst v p hv hne

/-- The call `edge_add(g, 0, 1, 0)` on the chain state as an instance. -/
theorem attached_parent_after_add_chain :
    ∃ rc g1, edge_add (some chain_graph) 0 1 0 = some (rc, some g1) ∧
      ∀ v p, parentOf chain_graph v = some p → p ≠ v →
        (v ≠ 1 → parentOf g1 v = some p) ∧
        (∀ q, v = 1 → parentOf chain_graph 0 = some q → q ≠ 0 → q ≠ p →
          parentOf g1 v = some q) ∧
        ((parentOf chain_graph 0 = none ∨ parentOf chain_graph 0 = some 0 ∨
            parentOf chain_graph 0 = some p) → parentOf g1 v = some p) :=
  attached_parent_after_add chain_graph 0 1 0 (by decide) (by decide) (by decide) (by decide)

theorem follow_succ (P : Int → Option Int) (k : Nat) {v u : Int} (h : P v = some u) :
    follow P (k + 1) v = follow P k u := by
  simp [follow, h]

theorem follow_add (P : Int → Option Int) (j m : Nat) : ∀ v,
    follow P (j + m) v = (follow P j v).bind (follow P m) := by
  induction j with
  | zero => intro v; simp [follow]
  | succ j ih =>
    intro v
    have e : j + 1 + m = (j + m) + 1 := by omega
    rw [e]
    simp only [follow]
    cases P v with
    | none => rfl
    | some u => simp only [Option.some_bind]; exact ih u

theorem follow_root (P : Int → Option Int) {r : Int} (hr : P r = some r) (k : Nat) :
    follow P k r = some r := by
  induction k with
  | zero => rfl
  | succ k ih => rw [follow_succ P k hr, ih]

theorem ends_step (P : Int → Option Int) {v u r : Int} (h : P v = some u)
    (hu : ends P u r) : ends P v r := by
  obtain ⟨⟨k, hk⟩, hr⟩ := hu
  exact ⟨⟨k + 1, by rw [follow_succ P k h, hk]⟩, hr⟩

theorem ends_trans (P : Int → Option Int) {v u r : Int} (k : Nat)
    (h : follow P k v = some u) (hu : ends P u r) : ends P v r := by
  obtain ⟨⟨m, hm⟩, hr⟩ := hu
  exact ⟨⟨k + m, by rw [follow_add, h]; exact hm⟩, hr⟩

theorem follow_update_avoid (P : Int → Option Int) (x : Int) (z : Option Int) (k : Nat) :
    ∀ v, (∀ j, j < k → follow P j v ≠ some x) →
      follow (Function.update P x z) k v = follow P k v := by
  induction k with
  | zero => intro v _; rfl
  | succ k ih =>
    intro v h
    have hv : v ≠ x := by
      intro e
      exact h 0 (by omega) (by simp [follow, e])
    simp only [follow, Function.update_noteq hv]
    cases hu : P v with
    | none => rfl
    | some u =>
      simp only [Option.some_bind]
      apply ih
      intro j hj
      have := h (j + 1) (by omega)
      rwa [follow_succ P j hu] at this

theorem ends_update_avoid (P : Int → Option Int) (x : Int) (z : Option Int) {y r : Int}
    (hy : ends P y r) (havoid : ∀ k, follow P k y ≠ some x) :
    ends (Function.update P x z) y r := by
  obtain ⟨⟨k, hk⟩, hr⟩ := hy
  have hrx : r ≠ x := by
    intro e
    apply havoid k
    rw [hk, e]
  refine ⟨⟨k, ?_⟩, ?_⟩
  · rw [follow_update_avoid P x z k y (fun j _ => havoid j), hk]
  · rw [Function.update_noteq hrx, hr]

/-- Redirecting `x` to `y` keeps the forest property when the chain of `y`
terminates without passing through `x`. -/
theorem forest_update (P : Int → Option Int) (x y : Int) (hf : forest P)
    (hy : ∃ r, ends P y r) (havoid : ∀ k, follow P k y ≠ some x) :
    forest (Function.update P x (some y)) := by
  obtain ⟨ry, hry⟩ := hy
  have hy1 : ends (Function.update P x (some y)) y ry := ends_update_avoid P x _ hry havoid
  have hx1 : ends (Function.update P x (some y)) x ry :=
    ends_step _ (Function.update_same x (some y) P) hy1
  have key : ∀ k v r, follow P k v = some r → P r = some r →
      ∃ r1, ends (Function.update P x (some y)) v r1 := by
    intro k
    induction k with
    | zero =>
      intro v r h hr
      simp only [follow, Option.some.injEq] at h
      subst h
      by_cases e : v = x
      · subst e; exact ⟨ry, hx1⟩
      · exact ⟨v, ⟨0, rfl⟩, by rw [Function.update_noteq e, hr]⟩
    | succ k ih =>
      intro v r h hr
      by_cases e : v = x
      · subst e; exact ⟨ry, hx1⟩
      · cases hu : P v with
        | none => simp [follow, hu] at h
        | some u =>
          rw [follow_succ P k hu] at h
          obtain ⟨r1, h1⟩ := ih u r h hr
          exact ⟨r1, ends_step _ (by rw [Function.update_noteq e, hu]) h1⟩
  intro v hv
  by_cases e : v = x
  · subst e; exact ⟨ry, hx1⟩
  · rw [Function.update_noteq e] at hv
    obtain ⟨r, ⟨k, hk⟩, hr⟩ := hf v hv
    exact key k v r hk hr

theorem follow_mono (P Q : Int → Option Int) (hPQ : ∀ v p, P v = some p → Q v = some p)
    (k : Nat) : ∀ v r, follow P k v = some r → follow Q k v = some r := by
  induction k with
  | zero => intro v r h; exact h
  | succ k ih =>
    intro v r h
    cases hu : P v with
    | none => simp [follow, hu] at h
    | some u =>
      rw [follow_succ P k hu] at h
      rw [follow_succ Q k (hPQ v u hu)]
      exact ih u r h

theorem forest_mat_map (P : Int → Option Int) (src dst : Int) (hf : forest P) :
    forest (mat_map P src dst) := by
  intro v hv
  cases hu : P v with
  | none =>
    have hvv : mat_map P src dst v = some v := by
      unfold mat_map at hv ⊢
      split
      · simp [hu]
      · rename_i h; rw [if_neg h] at hv; exact absurd hu hv
    exact ⟨v, ⟨0, rfl⟩, hvv⟩
  | some u =>
    obtain ⟨r, ⟨k, hk⟩, hr⟩ := hf v (by rw [hu]; simp)
    exact ⟨r, ⟨k, follow_mono P _ (fun _ _ h => mat_map_keep P src dst h) k v r hk⟩,
      mat_map_keep P src dst hr⟩

theorem forest_union_map (Q : Int → Option Int) (a b : Int) (hf : forest Q)
    (ha : Q a ≠ none) (hb : Q b ≠ none)
    (hsafe : (Q a = some a ∧ Q b = some b) ∨ Q a = Q b ∨
      ¬ ∃ r, ends Q a r ∧ ends Q b r) :
    forest (union_map Q a b) := by
  unfold union_map
  by_cases hc : Q a = some a ∧ Q b = some b
  · rw [if_pos hc]
    by_cases hlt : a < b
    · simp only [hlt, if_true]
      apply forest_update Q b a hf ⟨a, ⟨0, rfl⟩, hc.1⟩
      intro k
      rw [follow_root Q hc.1 k]
      intro e
      have := Option.some.inj e
      omega
    · simp only [hlt, if_false]
      by_cases e : a = b
      · subst e
        rw [← hc.1, Function.update_eq_self]
        exact hf
      · apply forest_update Q a b hf ⟨b, ⟨0, rfl⟩, hc.2⟩
        intro k
        rw [follow_root Q hc.2 k]
        intro e2
        exact e (Option.some.inj e2).symm
  · rw [if_neg hc]
    by_cases h2 : Q a = Q b
    · rw [if_pos h2]; exact hf
    · rw [if_neg h2]
      have hno : ¬ ∃ r, ends Q a r ∧ ends Q b r := by
        rcases hsafe with h | h | h
        · exact absurd h hc
        · exact absurd h h2
        · exact h
      obtain ⟨qa, hqa⟩ := Option.ne_none_iff_exists'.mp ha
      obtain ⟨qb, hqb⟩ := Option.ne_none_iff_exists'.mp hb
      obtain ⟨ra, hra⟩ := hf a ha
      obtain ⟨rb, hrb⟩ := hf b hb
      by_cases h3 : Q a = some a
      · rw [if_pos h3, hqb]
        have hbq : qb ≠ b := by
          intro e
          apply hc
          exact ⟨h3, by rw [hqb, e]⟩
        have hqbr : ends Q qb rb := by
          obtain ⟨⟨k, hk⟩, hr⟩ := hrb
          cases k with
          | zero =>
            simp only [follow, Option.some.injEq] at hk
            subst hk
            rw [hqb] at hr
            exact absurd (Option.some.inj hr) hbq
          | succ k =>
            rw [follow_succ Q k hqb] at hk
            exact ⟨⟨k, hk⟩, hr⟩
        apply forest_update Q a qb hf ⟨rb, hqbr⟩
        intro k hk
        apply hno
        refine ⟨a, ⟨⟨0, rfl⟩, h3⟩, ?_⟩
        exact ends_step Q hqb (ends_trans Q k hk ⟨⟨0, rfl⟩, h3⟩)
      · rw [if_neg h3, hqa]
        have haq : qa ≠ a := by
          intro e
          apply h3
          rw [hqa, e]
        have hqar : ends Q qa ra := by
          obtain ⟨⟨k, hk⟩, hr⟩ := hra
          cases k with
          | zero =>
            simp only [follow, Option.some.injEq] at hk
            subst hk
            rw [hqa] at hr
            exact absurd (Option.some.inj hr) haq
          | succ k =>
            rw [follow_succ Q k hqa] at hk
            exact ⟨⟨k, hk⟩, hr⟩
        apply forest_update Q b qa hf ⟨ra, hqar⟩
        intro k hk
        apply hno
        exact ⟨rb, ends_step Q hqa (ends_trans Q k hk hrb), hrb⟩

/-- A safe call keeps the forest property of the parent map. -/
theorem forest_next_parent (P : Int → Option Int) (src dst : Int) (hf : forest P)
    (hsafe : safe_call P src dst) : forest (next_parent P src dst) := by
  unfold next_parent
  apply forest_union_map _ _ _ (forest_mat_map P src dst hf)
  · rw [mat_map_src]; simp
  · rw [mat_map_dst]; simp
  · exact hsafe

/-- In a forest the only cycles are the self-loops of representatives. -/
theorem forest_no_cycle (P : Int → Option Int) (hf : forest P) (v : Int) (k : Nat)
    (hk : 0 < k) (hcyc : follow P k v = some v) : P v = some v := by
  have hv : P v ≠ none := by
    intro e
    cases k with
    | zero => omega
    | succ k => simp [follow, e] at hcyc
  obtain ⟨r, ⟨m, hm⟩, hr⟩ := hf v hv
  have hmul : ∀ t : Nat, follow P (t * k) v = some v := by
    intro t
    induction t with
    | zero => simp [follow]
    | succ t ih =>
      have e : (t + 1) * k = k + t * k := by ring
      rw [e, follow_add, hcyc]
      exact ih
  have h1 : follow P (m + (m * k - m)) v = some r := by
    rw [follow_add, hm]
    exact follow_root P hr _
  have h2 : m + (m * k - m) = m * k := by
    have : m ≤ m * k := Nat.le_mul_of_pos_right m hk
    omega
  rw [h2, hmul m] at h1
  rw [Option.some.inj h1]
  exact hr

theorem parentOf_ne_none (g : graph) (v : Int) :
    parentOf g v ≠ none ↔ vertex_at g v ≠ none := by
  unfold parentOf
  cases vertex_at g v <;> simp

theorem edge_add_step (g : graph) (ag : adjGroup) {src dst w rc : Int} {g1 : graph}
    (hg : g.g_adj_list_groups 0 = some ag)
    (hs0 : 0 ≤ src) (hs1 : src < 16) (hd0 : 0 ≤ dst) (hd1 : dst < 16)
    (h : edge_add (some g) src dst w = some (rc, some g1)) :
    rc = 0 ∧ g1.g_nr_vertices = g.g_nr_vertices ∧ (∃ ag1, g1.g_adj_list_groups 0 = some ag1) ∧
      parentOf g1 = next_parent (parentOf g) src dst := by
  obtain ⟨ag1, h1, h2⟩ := edge_add_parents g ag w hg hs0 hs1 hd0 hd1
  rw [h1] at h
  simp only [Option.some.injEq, Prod.mk.injEq] at h
  obtain ⟨e1, e2⟩ := h
  subst e2
  exact ⟨e1.symm, rfl, ⟨ag1, setGroup_same _ _ _⟩, h2⟩

theorem parentOf_emptyGroup (g : graph) (hg : g.g_adj_list_groups 0 = some emptyGroup)
    (v : Int) : parentOf g v = none := by
  rw [parentOf_of_bucket g emptyGroup hg]
  unfold parent_at slot_at
  cases slotIx v <;> rfl

theorem safe_reachable_inv (g : graph) (h : SafeReachable g) (hcap : 0 < g.g_nr_vertices) :
    (∃ ag, g.g_adj_list_groups 0 = some ag) ∧ forest (parentOf g) := by
  induction h with
  | fresh g0 n d g hc =>
    obtain ⟨h1, h2⟩ := graph_create_fresh hc
    rw [h1] at hcap
    refine ⟨⟨_, h2 hcap⟩, ?_⟩
    intro v hv
    exact absurd (parentOf_emptyGroup g (h2 hcap) v) hv
  | step g src dst w rc g1 _ hs0 hs1 hs2 hd0 hd1 _ hsafe hadd ih =>
    obtain ⟨⟨ag, hag⟩, hf⟩ := ih (by omega)
    obtain ⟨_, _, h3, h4⟩ := edge_add_step g ag hag hs0 hs1 hd0 hd1 hadd
    refine ⟨h3, ?_⟩
    rw [h4]
    exact forest_next_parent _ _ _ hf hsafe

theorem safe_reachable_chain_graph : SafeReachable chain_graph :=
  SafeReachable.step (after_add (fresh_graph 3) 1 2 0) 0 1 0 0 chain_graph
    (SafeReachable.step (fresh_graph 3) 1 2 0 0 (after_add (fresh_graph 3) 1 2 0)
      (SafeReachable.fresh blank_graph 3 false (fresh_graph 3) (by rfl))
      (by decide) (by decide) (by decide) (by decide) (by decide) (by decide)
      (Or.inl ⟨by rfl, by rfl⟩) (by rfl))
    (by decide) (by decide) (by decide) (by decide) (by decide) (by decide)
    (Or.inl ⟨by rfl, by rfl⟩) (by rfl)

theorem cycle_graph_follow (k : Nat) :
    (follow (parentOf cycle_graph) k 0 = some 0 ∨ follow (parentOf cycle_graph) k 0 = some 1) ∧
    (follow (parentOf cycle_graph) k 1 = some 0 ∨ follow (parentOf cycle_graph) k 1 = some 1) := by
  have p0 : parentOf cycle_graph 0 = some 1 := by rfl
  have p1 : parentOf cycle_graph 1 = some 0 := by rfl
  induction k with
  | zero => exact ⟨Or.inl rfl, Or.inr rfl⟩
  | succ k ih =>
    rw [follow_succ _ k p0, follow_succ _ k p1]
    exact ⟨ih.2, ih.1⟩

/-- C4 (counterexample). After `edge_add` for (1,2), (0,1), (0,2) on a fresh
graph of capacity 3 the stored parents are 0 -> 1 and 1 -> 0: vertex 0 lies on a
cycle of length two and its parent chain never reaches a self-parented
vertex. -/
theorem forest_invariant_fails :
    Reachable cycle_graph ∧ (0 : Int) < cycle_graph.g_nr_vertices ∧
      vertex_at cycle_graph 0 ≠ none ∧
      follow (parentOf cycle_graph) 2 0 = some 0 ∧ parentOf cycle_graph 0 ≠ some 0 ∧
      ¬ ∃ r, ends_at cycle_graph 0 r := by
  refine ⟨reachable_cycle_graph, by decide, by decide, by rfl, by decide, ?_⟩
  rintro ⟨r, ⟨k, hk⟩, hr⟩
  rcases (cycle_graph_follow k).1 with h | h
  · rw [h] at hk
    rw [← Option.some.inj hk] at hr
    exact absurd hr (by decide)
  · rw [h] at hk
    rw [← Option.some.inj hk] at hr
    exact absurd hr (by decide)

/-- C4 (amended). In every graph state reachable from a fresh graph by
`edge_add` calls (ids in `[0, 16)` and below the capacity) each of which joins
two vertices that, once materialised, are both self-parented, or have equal
stored parents, or have no common representative, every materialised vertex
below the capacity reaches a self-parented vertex after finitely many parent
steps, and it lies on no parent cycle other than its own self-loop. -/
theorem safe_reachable_forest (g : graph) (h : SafeReachable g) (v : Int)
    (hv1 : v < g.g_nr_vertices) (hm : vertex_at g v ≠ none) :
    (∃ r, ends_at g v r) ∧
      ∀ k, 0 < k → follow (parentOf g) k v = some v → parentOf g v = some v := by
  have hv0 : 0 ≤ v := by
    cases hi : slotIx v with
    | none => exact absurd (vertex_at_out g hi) hm
    | some i => exact (slotIx_some hi).1
  obtain ⟨_, hf⟩ := safe_reachable_inv g h (by omega)
  exact ⟨hf v ((parentOf_ne_none g v).mpr hm), fun k hk hc => forest_no_cycle _ hf v k hk hc⟩

/-- C4 (amended, witness). Vertex 2 of the chain state, whose chain is
2 -> 1 -> 0. -/
theorem safe_reachable_forest_witness :
    (∃ r, ends_at chain_graph 2 r) ∧
      ∀ k, 0 < k → follow (parentOf chain_graph) k 2 = some 2 →
        parentOf chain_graph 2 = some 2 :=
  safe_reachable_forest chain_graph safe_reachable_chain_graph 2 (by decide) (by decide)

theorem vertex_at_setGroup (g : graph) (ag : adjGroup) (v : Int) :
    vertex_at (setGroup g 0 (some ag)) v = slot_at ag v := by
  cases hk : slotIx v with
  | none =>
    rw [vertex_at_out _ hk]
    simp [slot_at, hk]
  | some k =>
    rw [vertex_at_bucket _ hk]
    simp [slot_at, hk]

theorem vertex_at_of_bucket (g : graph) (ag : adjGroup)
    (hg : g.g_adj_list_groups 0 = some ag) (v : Int) : vertex_at g v = slot_at ag v := by
  rw [← vertex_at_setGroup g ag v, setGroup_self g 0 (some ag) hg]

theorem mem_edge_chain_add (l : List edge) (d w : Int) (e : edge)
    (h : e ∈ edge_chain_add l d w) : e ∈ l ∨ e.e_data = d := by
  induction l with
  | nil =>
    simp only [edge_chain_add, List.mem_singleton] at h
    right; rw [h]
  | cons x xs ih =>
    unfold edge_chain_add at h
    split at h
    · left; exact h
    · rcases List.mem_cons.mp h with h | h
      · left; rw [h]; exact List.mem_cons_self _ _
      · rcases ih h with h | h
        · left; exact List.mem_cons_of_mem _ h
        · right; exact h

theorem before_union_noop (ag : adjGroup) (src dst w : Int) {i j : Fin ADJ_GROUP_SZ}
    {v : vertice} (hv : ag.adj_list i = some v) (he : ∃ e ∈ v.v_edge, e.e_data = dst)
    (hj : ag.adj_list j ≠ none) : before_union ag src dst w i j = ag := by
  apply adjGroup_ext
  intro k
  rw [before_union_slot]
  by_cases hki : k = i
  · subst hki
    simp [hv, _edge_add, edge_chain_add_present _ _ _ he]
  · rw [if_neg hki]
    by_cases hkj : k = j
    · subst hkj
      cases hx : ag.adj_list k with
      | none => exact absurd hx hj
      | some x => simp
    · rw [if_neg hkj]

theorem union_result_mat (ag : adjGroup) (a b : Int) (ia ib : Fin ADJ_GROUP_SZ)
    (va vb : vertice) (hva : ag.adj_list ia = some va) (hvb : ag.adj_list ib = some vb)
    (k : Fin ADJ_GROUP_SZ) :
    (union_result ag a b ia ib va vb).adj_list k = none ↔ ag.adj_list k = none := by
  have h := union_result_edges ag a b ia ib va vb hva hvb k
  cases h1 : (union_result ag a b ia ib va vb).adj_list k <;>
    cases h2 : ag.adj_list k <;> simp [h1, h2] at h ⊢

theorem edges_closed_step (ag : adjGroup) (src dst w : Int) {i j : Fin ADJ_GROUP_SZ}
    (hj : slotIx dst = some j)
    {va vb : vertice} (hva : (before_union ag src dst w i j).adj_list i = some va)
    (hvb : (before_union ag src dst w i j).adj_list j = some vb)
    (hc : edges_closed ag) :
    edges_closed (union_result (before_union ag src dst w i j) src dst i j va vb) := by
  have hmat : ∀ x, slot_at ag x ≠ none ∨ x = dst →
      slot_at (union_result (before_union ag src dst w i j) src dst i j va vb) x ≠ none := by
    intro x hx
    have hb : slot_at (before_union ag src dst w i j) x ≠ none := by
      rcases hx with hx | hx
      · cases hk : slotIx x with
        | none => simp [slot_at, hk] at hx
        | some k =>
          rw [slot_at_of hk] at hx ⊢
          rw [before_union_slot]
          split
          · simp
          · split
            · simp
            · exact hx
      · subst hx
        rw [slot_at_of hj, hvb]
        simp
    cases hk : slotIx x with
    | none => simp [slot_at, hk] at hb
    | some k =>
      rw [slot_at_of hk] at hb ⊢
      intro e
      exact hb ((union_result_mat _ _ _ _ _ _ _ hva hvb k).mp e)
  intro k v hv e he
  apply hmat
  have h1 := union_result_edges _ src dst i j va vb hva hvb k
  rw [hv, before_union_slot] at h1
  by_cases hki : k = i
  · rw [if_pos hki] at h1
    simp only [Option.map_some', Option.some.injEq, _edge_add] at h1
    rw [h1] at he
    rcases mem_edge_chain_add _ _ _ _ he with h | h
    · cases hx : ag.adj_list i with
      | none => rw [hx] at h; simp [vertice_create] at h
      | some x =>
        rw [hx] at h
        left
        exact hc i x hx e h
    · right; exact h
  · rw [if_neg hki] at h1
    by_cases hkj : k = j
    · rw [if_pos hkj] at h1
      simp only [Option.map_some', Option.some.injEq] at h1
      rw [h1] at he
      cases hx : ag.adj_list j with
      | none => rw [hx] at he; simp [vertice_create] at he
      | some x =>
        rw [hx] at he
        left
        exact hc j x hx e he
    · rw [if_neg hkj] at h1
      cases hx : ag.adj_list k with
      | none => rw [hx] at h1; simp at h1
      | some x =>
        rw [hx] at h1
        simp only [Option.map_some', Option.some.injEq] at h1
        rw [h1] at he
        left
        exact hc k x hx e he

theorem reachable_inv (g : graph) (h : Reachable g) (hcap : 0 < g.g_nr_vertices) :
    ∃ ag, g.g_adj_list_groups 0 = some ag ∧ edges_closed ag := by
  induction h with
  | fresh g0 n d g hc =>
    obtain ⟨h1, h2⟩ := graph_create_fresh hc
    rw [h1] at hcap
    refine ⟨_, h2 hcap, ?_⟩
    intro i v hv
    simp [emptyGroup] at hv
  | step g src dst w rc g1 _ hs0 hs1 hs2 hd0 hd1 _ hadd ih =>
    obtain ⟨ag, hag, hcl⟩ := ih (by omega)
    obtain ⟨i, hi⟩ := slotIx_of_range hs0 hs1
    obtain ⟨j, hj⟩ := slotIx_of_range hd0 hd1
    obtain ⟨va, vb, hva, hvb, h1⟩ := edge_add_result g ag w hag hi hj
    rw [h1] at hadd
    simp only [Option.some.injEq, Prod.mk.injEq] at hadd
    obtain ⟨_, e2⟩ := hadd
    subst e2
    exact ⟨_, setGroup_same _ _ _, edges_closed_step ag src dst w hj hva hvb hcl⟩

theorem reachable_loop_graph : Reachable loop_graph :=
  Reachable.step (fresh_graph 4) 3 3 0 0 loop_graph
    (Reachable.fresh blank_graph 4 false (fresh_graph 4) (by rfl))
    (by decide) (by decide) (by decide) (by decide) (by decide) (by decide) (by rfl)

theorem reachable_regraft_graph : Reachable regraft_graph :=
  Reachable.step two_pairs_graph 1 3 5 0 regraft_graph reachable_two_pairs_graph
    (by decide) (by decide) (by decide) (by decide) (by decide) (by decide) (by rfl)

/-- C10 (counterexample). Two reachable states in which re-adding a stored edge
changes the graph: the self-loop (3,3) added again raises the connection count
of 3 from 1 to 2, and the edge (2,3) added again after (0,1), (2,3), (1,3)
moves the stored parent of 2 from 2 to 0. -/
theorem readd_changes_state :
    (Reachable loop_graph ∧
      edgesOf loop_graph 3 = some [⟨3, 0, none⟩] ∧
      edge_add (some loop_graph) 3 3 0 = some (0, some (after_add loop_graph 3 3 0)) ∧
      connsOf loop_graph 3 = some 1 ∧ connsOf (after_add loop_graph 3 3 0) 3 = some 2) ∧
    (Reachable regraft_graph ∧
      edgesOf regraft_graph 2 = some [⟨3, 0, none⟩] ∧
      edge_add (some regraft_graph) 2 3 0 = some (0, some (after_add regraft_graph 2 3 0)) ∧
      parentOf regraft_graph 2 = some 2 ∧
      parentOf (after_add regraft_graph 2 3 0) 2 = some 0) :=
  ⟨⟨reachable_loop_graph, by rfl, by rfl, by rfl, by rfl⟩,
    ⟨reachable_regraft_graph, by rfl, by rfl, by rfl, by rfl⟩⟩

/-- C10 (amended). In every reachable graph state in which the edge list of
vertex `src` already contains an edge to `dst` (ids in `[0, 16)`, `src` below
the capacity), `edge_add(g, src, dst, w)` returns 0, leaves the edge list of
every vertex unchanged and materialises no vertex; and when moreover `src` and
`dst` differ and store the same parent, the whole graph state is unchanged. -/
theorem readd_keeps_edges (g : graph) (hR : Reachable g) (src dst w : Int) (l : List edge)
    (hs2 : src < g.g_nr_vertices) (hd0 : 0 ≤ dst) (hd1 : dst < 16)
    (hl : edgesOf g src = some l) (he : ∃ e ∈ l, e.e_data = dst) :
    ∃ g1, edge_add (some g) src dst w = some (0, some g1) ∧
      (∀ v, edgesOf g1 v = edgesOf g v) ∧
      (∀ v, vertex_at g1 v = none ↔ vertex_at g v = none) ∧
      (src ≠ dst → parentOf g src = parentOf g dst → g1 = g) := by
  cases hvs : vertex_at g src with
  | none => simp [edgesOf, hvs] at hl
  | some vs =>
    obtain ⟨i, ag0, hi, hg0, _⟩ := vertex_at_some hvs
    have hsr := slotIx_some hi
    obtain ⟨ag, hag, hcl⟩ := reachable_inv g hR (by omega)
    obtain ⟨j, hj⟩ := slotIx_of_range hd0 hd1
    have hvi : ag.adj_list i = some vs := by
      rw [vertex_at_of_bucket g ag hag, slot_at_of hi] at hvs
      exact hvs
    have hle : vs.v_edge = l := by
      simpa [edgesOf, hvs] using hl
    subst hle
    have hjm : ag.adj_list j ≠ none := by
      obtain ⟨e, hem, hed⟩ := he
      have := hcl i vs hvi e hem
      rw [hed, slot_at_of hj] at this
      exact this
    obtain ⟨va, vb, hva, hvb, h1⟩ := edge_add_result g ag w hag hi hj
    have hbu := before_union_noop ag src dst w hvi he hjm
    rw [hbu] at h1 hva hvb
    refine ⟨_, h1, ?_, ?_, ?_⟩
    · intro v
      unfold edgesOf
      rw [vertex_at_setGroup, vertex_at_of_bucket g ag hag]
      cases hk : slotIx v with
      | none => simp [slot_at, hk]
      | some k =>
        rw [slot_at_of hk, slot_at_of hk]
        exact union_result_edges ag src dst i j va vb hva hvb k
    · intro v
      rw [vertex_at_setGroup, vertex_at_of_bucket g ag hag]
      cases hk : slotIx v with
      | none => simp [slot_at, hk]
      | some k =>
        rw [slot_at_of hk, slot_at_of hk]
        exact union_result_mat ag src dst i j va vb hva hvb k
    · intro hne hpar
      rw [parentOf_of_bucket g ag hag, parentOf_of_bucket g ag hag] at hpar
      simp only [parent_at, slot_at_of hi, slot_at_of hj, hva, hvb, Option.map_some',
        Option.some.injEq] at hpar
      have hres : union_result ag src dst i j va vb = ag := by
        unfold union_result
        have hc : ¬ (va.v_parent = src ∧ vb.v_parent = dst) := by
          rintro ⟨h1, h2⟩
          apply hne
          rw [← h1, ← h2, hpar]
        rw [if_neg hc, if_pos hpar]
      rw [hres]
      exact setGroup_self g 0 (some ag) hag

/-- C10 (amended, witness). Re-adding the edge (0,1) to the chain state. -/
theorem readd_keeps_edges_witness :
    ∃ g1, edge_add (some chain_graph) 0 1 9 = some (0, some g1) ∧
      (∀ v, edgesOf g1 v = edgesOf chain_graph v) ∧
      (∀ v, vertex_at g1 v = none ↔ vertex_at chain_graph v = none) ∧
      ((0 : Int) ≠ 1 → parentOf chain_graph 0 = parentOf chain_graph 1 → g1 = chain_graph) :=
  readd_keeps_edges chain_graph reachable_chain_graph 0 1 9 [⟨1, 0, none⟩]
    (by decide) (by decide) (by decide) (by rfl) ⟨⟨1, 0, none⟩, by simp, by rfl⟩

theorem edge_chain_add_absent (l : List edge) (d w : Int)
    (h : ∀ e ∈ l, e.e_data ≠ d) :
    edge_chain_add l d w = l ++ [{ e_data := d, e_weight := w, e_back := none }] := by
  induction l with
  | nil => rfl
  | cons x xs ih =>
    have hx : x.e_data ≠ d := h x (List.mem_cons_self _ _)
    have hxs : ∀ e ∈ xs, e.e_data ≠ d := fun e he => h e (List.mem_cons_of_mem _ he)
    simp [edge_chain_add, hx, ih hxs]

/-- C12. Tail append: when the edge list `L` of `v` holds no edge to `dst`,
`_edge_add(v, dst, weight)` returns 0 and leaves `v` with the edge list `L`
followed by exactly one new edge, of destination `dst` and weight `weight`
(its back-edge flag is never assigned); the edges of `L` stay as they were, in
the same order, and no other field of `v` changes. -/
theorem edge_add_tail_append (v : vertice) (dst weight : Int)
    (h : ∀ e ∈ v.v_edge, e.e_data ≠ dst) :
    _edge_add v dst weight =
      (0, { v with v_edge :=
        v.v_edge ++ [{ e_data := dst, e_weight := weight, e_back := none }] }) := by
  unfold _edge_add
  rw [edge_chain_add_absent _ _ _ h]

/-- C12 (witness). Vertex 2 with edges to 3 and 5 receives an edge to 7. -/
theorem edge_add_tail_append_witness :
    _edge_add ⟨2, 2, 0, 0, [⟨3, 7, none⟩, ⟨5, 4, none⟩]⟩ 7 9 =
      (0, { (⟨2, 2, 0, 0, [⟨3, 7, none⟩, ⟨5, 4, none⟩]⟩ : vertice) with v_edge :=
        (⟨2, 2, 0, 0, [⟨3, 7, none⟩, ⟨5, 4, none⟩]⟩ : vertice).v_edge ++
          [{ e_data := 7, e_weight := 9, e_back := none }] }) :=
  edge_add_tail_append ⟨2, 2, 0, 0, [⟨3, 7, none⟩, ⟨5, 4, none⟩]⟩ 7 9 (by decide)

/-- C13 (counterexample). On the fresh graph of capacity 12 the call
`edge_add(g, 13, 14, 1)`, both ids being above the capacity, returns 0,
materialises vertices 13 and 14 and stores the edge 13 -> 14. -/
theorem out_of_capacity_add_succeeds :
    (fresh_graph 12).g_nr_vertices = 12 ∧
      edge_add (some (fresh_graph 12)) 13 14 1 =
        some (0, some (after_add (fresh_graph 12) 13 14 1)) ∧
      vertex_at (fresh_graph 12) 13 = none ∧ vertex_at (fresh_graph 12) 14 = none ∧
      edgesOf (after_add (fresh_graph 12) 13 14 1) 13 = some [⟨14, 1, none⟩] ∧
      parentOf (after_add (fresh_graph 12) 13 14 1) 14 = some 13 :=
  ⟨by rfl, by rfl, by rfl, by rfl, by rfl, by rfl⟩

theorem edge_chain_add_has (l : List edge) (d w : Int) :
    ∃ e ∈ edge_chain_add l d w, e.e_data = d := by
  induction l with
  | nil => exact ⟨_, List.mem_singleton_self _, rfl⟩
  | cons x xs ih =>
    unfold edge_chain_add
    split
    · rename_i hx; exact ⟨x, List.mem_cons_self _ _, hx⟩
    · obtain ⟨e, he, hd⟩ := ih
      exact ⟨e, List.mem_cons_of_mem _ he, hd⟩

/-- C13 (amended). `edge_add` does not compare ids with the capacity: in every
graph state whose bucket 0 is allocated (every graph created with a positive
capacity), for all `src` and `dst` in `[0, 16)`, at or above the capacity as
well as below it, the call returns 0, leaves `src` and `dst` materialised and
leaves an edge to `dst` in the edge list of `src`. -/
theorem out_of_capacity_add (g : graph) (ag : adjGroup) (src dst w : Int)
    (hg : g.g_adj_list_groups 0 = some ag)
    (hs0 : 0 ≤ src) (hs1 : src < 16) (hd0 : 0 ≤ dst) (hd1 : dst < 16) :
    ∃ g1, edge_add (some g) src dst w = some (0, some g1) ∧
      vertex_at g1 src ≠ none ∧ vertex_at g1 dst ≠ none ∧
      ∃ l, edgesOf g1 src = some l ∧ ∃ e ∈ l, e.e_data = dst := by
  obtain ⟨i, hi⟩ := slotIx_of_range hs0 hs1
  obtain ⟨j, hj⟩ := slotIx_of_range hd0 hd1
  obtain ⟨va, vb, hva, hvb, h1⟩ := edge_add_result g ag w hg hi hj
  refine ⟨_, h1, ?_, ?_, ?_⟩
  · rw [vertex_at_setGroup, slot_at_of hi]
    intro e
    rw [(union_result_mat _ _ _ _ _ _ _ hva hvb i).mp e] at hva
    simp at hva
  · rw [vertex_at_setGroup, slot_at_of hj]
    intro e
    rw [(union_result_mat _ _ _ _ _ _ _ hva hvb j).mp e] at hvb
    simp at hvb
  · unfold edgesOf
    rw [vertex_at_setGroup, slot_at_of hi, union_result_edges _ _ _ _ _ _ _ hva hvb i,
      before_union_slot, if_pos rfl]
    exact ⟨_, rfl, edge_chain_add_has _ _ _⟩

/-- C13 (amended, witness). Capacity 12 and the ids 13 and 14. -/
theorem out_of_capacity_add_witness :
    (fresh_graph 12).g_nr_vertices ≤ 13 ∧
      ∃ g1, edge_add (some (fresh_graph 12)) 13 14 1 = some (0, some g1) ∧
        vertex_at g1 13 ≠ none ∧ vertex_at g1 14 ≠ none ∧
        ∃ l, edgesOf g1 13 = some l ∧ ∃ e ∈ l, e.e_data = 14 :=
  ⟨by decide, out_of_capacity_add (fresh_graph 12) emptyGroup 13 14 1
    ((@graph_create_fresh blank_graph (fresh_graph 12) 12 0 false (by rfl)).2 (by decide))
    (by decide) (by decide) (by decide) (by decide)⟩

/-- C16 (counterexample). `graph_create` with capacity -1 on a non-NULL graph
record returns 0, not `-EINVAL`. -/
theorem negative_capacity_accepted :
    ∃ g, graph_create (some blank_graph) (-1) false (fun _ => emptyGroup) = some (0, some g) ∧
      g.g_nr_vertices = -1 ∧
      graph_create (some blank_graph) (-1) false (fun _ => emptyGroup) ≠
        some (-EINVAL, some g) := by
  refine ⟨_, by rfl, by rfl, ?_⟩
  intro h
  have h2 := congrArg (Option.map Prod.fst) h
  revert h2
  decide

/-- C16 (amended). `graph_create` returns `-EINVAL` for a NULL graph handle
only: for every `vertices < 0` and a non-NULL graph record it returns 0,
records the negative capacity, the flag and the bucket count `vertices / 16`
(truncated, at most 0), and touches no bucket pointer. -/
theorem negative_capacity_create (g0 : graph) (n : Int) (d : Bool) (mem : Nat → adjGroup)
    (hn : n < 0) :
    graph_create none n d mem = some (-EINVAL, none) ∧
    graph_create (some g0) n d mem =
      some (0, some { g0 with g_directed := d, g_nr_vertices := n,
                              g_nr_adj_list_groups := Int.tdiv n 16 }) ∧
    Int.tdiv n 16 ≤ 0 := by
  have h3 : Int.tdiv n 16 = -((-n) / 16) := by
    rw [← Int.tdiv_eq_ediv (by omega) (by norm_num), Int.neg_tdiv, neg_neg]
  have h1 : ¬ Int.tmod n 16 > 0 := by
    rw [Int.tmod_def, h3]
    omega
  have h2 : Int.tdiv n 16 ≤ 0 := by
    rw [h3]
    omega
  refine ⟨rfl, ?_, h2⟩
  unfold graph_create
  simp only [h1, if_false]
  have h4 : (Int.tdiv n 16).toNat = 0 := by omega
  rw [h4]
  rfl

/-- C16 (amended, witness). Capacity -5. -/
theorem negative_capacity_create_witness :
    graph_create none (-5) true (fun _ => emptyGroup) = some (-EINVAL, none) ∧
    graph_create (some blank_graph) (-5) true (fun _ => emptyGroup) =
      some (0, some { blank_graph with g_directed := true, g_nr_vertices := -5,
                                       g_nr_adj_list_groups := Int.tdiv (-5) 16 }) ∧
    Int.tdiv (-5) 16 ≤ 0 :=
  negative_capacity_create blank_graph (-5) true (fun _ => emptyGroup) (by decide)

theorem setGroup_fields (g : graph) (k : Fin ADJ_GROUPS_NR) (ag : Option adjGroup) :
    (setGroup g k ag).g_nr_vertices = g.g_nr_vertices ∧
    (setGroup g k ag).g_directed = g.g_directed ∧
    (setGroup g k ag).g_nr_adj_list_groups = g.g_nr_adj_list_groups :=
  ⟨rfl, rfl, rfl⟩

theorem groupIx_of_lt {i : Nat} (h : i < 8) : ∃ k : Fin ADJ_GROUPS_NR, groupIx (i : Int) = some k ∧
    (k : Nat) = i := by
  unfold groupIx
  rw [dif_pos ⟨by omega, by omega⟩]
  exact ⟨_, rfl, by simp⟩

theorem slotIx_of_lt {i : Nat} (h : i < 16) : ∃ k : Fin ADJ_GROUP_SZ, slotIx (i : Int) = some k ∧
    (k : Nat) = i := by
  unfold slotIx
  rw [dif_pos ⟨by omega, by omega⟩]
  exact ⟨_, rfl, by simp⟩

/-- The first loop of `graph_create` is defined when every counter value is
below `ADJ_GROUPS_NR`; it keeps the scalar fields, leaves bucket `i` pointing
at block `mem i` for each visited `i` and keeps the other pointers. -/
theorem create_alloc_total (mem : Nat → adjGroup) (is : List Nat) : ∀ (g : graph),
    (∀ i ∈ is, i < 8) →
    ∃ g1, create_alloc mem g is = some g1 ∧
      g1.g_nr_vertices = g.g_nr_vertices ∧ g1.g_directed = g.g_directed ∧
      g1.g_nr_adj_list_groups = g.g_nr_adj_list_groups ∧
      ∀ k : Fin ADJ_GROUPS_NR,
        ((k : Nat) ∈ is → g1.g_adj_list_groups k = some (mem k)) ∧
        ((k : Nat) ∉ is → g1.g_adj_list_groups k = g.g_adj_list_groups k) := by
  induction is with
  | nil =>
    intro g _
    exact ⟨g, rfl, rfl, rfl, rfl, fun k => ⟨fun h => by simp at h, fun _ => rfl⟩⟩
  | cons i is ih =>
    intro g h
    obtain ⟨k0, hk0, hk0v⟩ := groupIx_of_lt (h i (List.mem_cons_self _ _))
    obtain ⟨g1, e1, e2, e3, e4, e5⟩ :=
      ih (setGroup g k0 (some (mem i))) (fun x hx => h x (List.mem_cons_of_mem _ hx))
    refine ⟨g1, ?_, e2, e3, e4, ?_⟩
    · rw [create_alloc, hk0]
      exact e1
    · intro k
      by_cases hin : (k : Nat) ∈ is
      · exact ⟨fun _ => (e5 k).1 hin, fun hn => absurd (List.mem_cons_of_mem _ hin) hn⟩
      · have hk := (e5 k).2 hin
        rw [setGroup_apply] at hk
        refine ⟨fun hm => ?_, fun hn => ?_⟩
        · rcases List.mem_cons.mp hm with hm | hm
          · have : k = k0 := Fin.ext (by omega)
            rw [hk, if_pos this, hm]
          · exact absurd hm hin
        · have : k ≠ k0 := by
            intro e
            apply hn
            rw [e, hk0v]
            exact List.mem_cons_self _ _
          rw [hk, if_neg this]

/-- The inner loop of `graph_create` with counter `i < 16`: it is defined and
leaves the bucket with slot `i` NULL and every other slot as it was, unless it
runs zero times. -/
theorem create_clear_slots_total (i : Nat) (hi : i < 16) (js : List Nat) : ∀ ag,
    ∃ ag1, create_clear_slots i ag js = some ag1 ∧
      ∀ s : Fin ADJ_GROUP_SZ, ag1.adj_list s =
        if (s : Nat) = i ∧ js ≠ [] then none else ag.adj_list s := by
  obtain ⟨s0, hs0, hs0v⟩ := slotIx_of_lt hi
  induction js with
  | nil =>
    intro ag
    exact ⟨ag, rfl, fun s => by simp⟩
  | cons j js ih =>
    intro ag
    obtain ⟨ag1, e1, e2⟩ := ih (setSlot ag s0 none)
    refine ⟨ag1, ?_, ?_⟩
    · rw [create_clear_slots, hs0]
      exact e1
    · intro s
      rw [e2 s, setSlot_apply]
      by_cases hs : (s : Nat) = i
      · have : s = s0 := Fin.ext (by omega)
        simp [this, hs0v]
      · have : s ≠ s0 := fun e => hs (by rw [e, hs0v])
        simp [hs, this]

/-- The second loop of `graph_create` is defined when every counter value is
below `ADJ_GROUPS_NR` and names an allocated bucket; it keeps the scalar fields
and which bucket pointers are NULL. -/
theorem create_clear_total (is : List Nat) : ∀ (g : graph),
    (∀ i ∈ is, i < 8) →
    (∀ k : Fin ADJ_GROUPS_NR, (k : Nat) ∈ is → g.g_adj_list_groups k ≠ none) →
    ∃ g1, create_clear g is = some g1 ∧
      g1.g_nr_vertices = g.g_nr_vertices ∧ g1.g_directed = g.g_directed ∧
      g1.g_nr_adj_list_groups = g.g_nr_adj_list_groups ∧
      ∀ k : Fin ADJ_GROUPS_NR, g1.g_adj_list_groups k = none ↔ g.g_adj_list_groups k = none := by
  induction is with
  | nil =>
    intro g _ _
    exact ⟨g, rfl, rfl, rfl, rfl, fun k => Iff.rfl⟩
  | cons i is ih =>
    intro g h hal
    have hi8 := h i (List.mem_cons_self _ _)
    obtain ⟨k0, hk0, hk0v⟩ := groupIx_of_lt hi8
    have hne := hal k0 (by rw [hk0v]; exact List.mem_cons_self _ _)
    obtain ⟨ag, hag⟩ := Option.ne_none_iff_exists'.mp hne
    obtain ⟨ag1, hc1, _⟩ := create_clear_slots_total i (by omega) (List.range ADJ_GROUP_SZ) ag
    have hnone : ∀ k : Fin ADJ_GROUPS_NR,
        (setGroup g k0 (some ag1)).g_adj_list_groups k = none ↔ g.g_adj_list_groups k = none := by
      intro k
      rw [setGroup_apply]
      by_cases e : k = k0
      · subst e; simp [hag]
      · simp [e]
    obtain ⟨g1, e1, e2, e3, e4, e5⟩ :=
      ih (setGroup g k0 (some ag1)) (fun x hx => h x (List.mem_cons_of_mem _ hx))
        (fun k hk hn => hal k (List.mem_cons_of_mem _ hk) ((hnone k).mp hn))
    refine ⟨g1, ?_, e2, e3, e4, fun k => (e5 k).trans (hnone k)⟩
    rw [create_clear, hk0]
    simp only [Option.some_bind, hag, hc1]
    exact e1

theorem ceil_div_16 (n : Int) : ⌈(n : ℚ) / 16⌉ = (n + 15) / 16 := by
  rw [Int.ceil_eq_iff]
  have h1 : 16 * ((n + 15) / 16) ≤ n + 15 := by omega
  have h2 : n ≤ 16 * ((n + 15) / 16) := by omega
  have q1 : (16 : ℚ) * (((n + 15) / 16 : Int) : ℚ) ≤ (n : ℚ) + 15 := by exact_mod_cast h1
  have q2 : (n : ℚ) ≤ 16 * (((n + 15) / 16 : Int) : ℚ) := by exact_mod_cast h2
  constructor
  · rw [lt_div_iff₀ (by norm_num)]
    linarith
  · rw [div_le_iff₀ (by norm_num)]
    linarith

theorem bucket_count_nonneg (n : Int) (hn : 0 ≤ n) :
    (if Int.tmod n 16 > 0 then Int.tdiv n 16 + 1 else Int.tdiv n 16) = (n + 15) / 16 := by
  rw [Int.tmod_eq_emod hn (by norm_num), Int.tdiv_eq_ediv hn (by norm_num)]
  split <;> omega

/-- The function `graph_create` on a non-NULL record, a capacity `n >= 0` and a
bucket count of at most `ADJ_GROUPS_NR`: it returns 0 and a graph with the
fields recorded; every bucket pointer below the bucket count is non-NULL, and a
pointer from the bucket count on is NULL exactly when it was NULL in the record
handed in. -/
theorem graph_create_result (g0 : graph) (n : Int) (d : Bool) (mem : Nat → adjGroup)
    (hn : 0 ≤ n) (hb : (n + 15) / 16 ≤ 8) :
    ∃ g, graph_create (some g0) n d mem = some (0, some g) ∧
      g.g_nr_vertices = n ∧ g.g_directed = d ∧ g.g_nr_adj_list_groups = (n + 15) / 16 ∧
      ∀ k : Fin ADJ_GROUPS_NR,
        (g.g_adj_list_groups k = none ↔
          (¬ ((k : Nat) : Int) < (n + 15) / 16 ∧ g0.g_adj_list_groups k = none)) := by
  unfold graph_create
  simp only [bucket_count_nonneg n hn]
  have hr : ∀ i ∈ List.range ((n + 15) / 16).toNat, i < 8 := by
    intro i hi
    rw [List.mem_range] at hi
    omega
  obtain ⟨g2, a1, a2, a3, a4, a5⟩ := create_alloc_total mem (List.range ((n + 15) / 16).toNat)
    { g0 with g_directed := d, g_nr_vertices := n, g_nr_adj_list_groups := (n + 15) / 16 } hr
  obtain ⟨g3, c1, c2, c3, c4, c5⟩ := create_clear_total (List.range ((n + 15) / 16).toNat) g2 hr
    (fun k hk => by rw [(a5 k).1 hk]; simp)
  refine ⟨g3, ?_, by rw [c2, a2], by rw [c3, a3], by rw [c4, a4], ?_⟩
  · rw [a1]
    simp only [c1]
  · intro k
    rw [c5 k]
    by_cases hk : (k : Nat) ∈ List.range ((n + 15) / 16).toNat
    · rw [(a5 k).1 hk]
      rw [List.mem_range] at hk
      constructor
      · intro h; simp at h
      · intro h; exact absurd (by omega) h.1
    · rw [(a5 k).2 hk]
      rw [List.mem_range] at hk
      constructor
      · intro h; exact ⟨by omega, h⟩
      · intro h; exact h.2

/-- C14. For every capacity `vertices >= 0` with `ceil(vertices / 16) <= 8`,
every flag, every previous content of the graph record and every content of
the allocated blocks, `graph_create(g, vertices, directed)` returns 0 and
records `g_nr_vertices = vertices`, `g_directed = directed` and
`g_nr_adj_list_groups = ceil(vertices / 16)`. -/
theorem graph_create_records (g0 : graph) (vertices : Int) (directed : Bool)
    (mem : Nat → adjGroup) (hn : 0 ≤ vertices) (hb : ⌈(vertices : ℚ) / 16⌉ ≤ 8) :
    ∃ g, graph_create (some g0) vertices directed mem = some (0, some g) ∧
      g.g_nr_vertices = vertices ∧ g.g_directed = directed ∧
      g.g_nr_adj_list_groups = ⌈(vertices : ℚ) / 16⌉ := by
  rw [ceil_div_16] at hb ⊢
  obtain ⟨g, h1, h2, h3, h4, _⟩ := graph_create_result g0 vertices directed mem hn hb
  exact ⟨g, h1, h2, h3, h4⟩

/-- C14 (witness). Capacity 12, undirected, as in `main`. -/
theorem graph_create_records_witness :
    ∃ g, graph_create (some blank_graph) 12 false (fun _ => junk_group) = some (0, some g) ∧
      g.g_nr_vertices = 12 ∧ g.g_directed = false ∧
      g.g_nr_adj_list_groups = ⌈((12 : Int) : ℚ) / 16⌉ :=
  graph_create_records blank_graph 12 false (fun _ => junk_group) (by decide)
    (by rw [ceil_div_16]; decide)

/-- C19 (failing input). `graph_create(&g, 12, false)` when the block allocated
for bucket 0 holds non-NULL values in all 16 slots: the call returns 0 with
slot 0 of bucket 0 NULL and slot 1 of bucket 0 still holding the stray value,
because the inner loop writes `adj_list[i]` sixteen times. -/
theorem create_leaves_slots_uncleared :
    ∃ g ag, graph_create (some blank_graph) 12 false (fun _ => junk_group) = some (0, some g) ∧
      g.g_nr_adj_list_groups = 1 ∧ g.g_adj_list_groups 0 = some ag ∧
      ag.adj_list 0 = none ∧ ag.adj_list 1 = some ⟨99, 99, 99, 99, []⟩ :=
  ⟨_, _, by rfl, by rfl, by rfl, by rfl, by rfl⟩

theorem destroy_groups_total (is : List Nat) : ∀ (g : graph) (j : Nat) (fr : List (List edge × vertice)),
    (∀ i ∈ is, i < 8) →
    ∃ g1 j1 fr1, destroy_groups g j fr is = some (g1, j1, fr1) ∧
      g1.g_nr_vertices = g.g_nr_vertices ∧ g1.g_directed = g.g_directed ∧
      g1.g_nr_adj_list_groups = g.g_nr_adj_list_groups ∧
      ∀ k : Fin ADJ_GROUPS_NR,
        ((k : Nat) ∈ is → g1.g_adj_list_groups k = none) ∧
        ((k : Nat) ∉ is → g1.g_adj_list_groups k = g.g_adj_list_groups k) := by
  induction is with
  | nil =>
    intro g j fr _
    exact ⟨g, j, fr, rfl, rfl, rfl, rfl, fun k => ⟨fun h => by simp at h, fun _ => rfl⟩⟩
  | cons i is ih =>
    intro g j fr h
    obtain ⟨k0, hk0, hk0v⟩ := groupIx_of_lt (h i (List.mem_cons_self _ _))
    have hrest : ∀ x ∈ is, x < 8 := fun x hx => h x (List.mem_cons_of_mem _ hx)
    cases hag : g.g_adj_list_groups k0 with
    | none =>
      obtain ⟨g1, j1, fr1, e1, e2, e3, e4, e5⟩ := ih g j fr hrest
      refine ⟨g1, j1, fr1, ?_, e2, e3, e4, ?_⟩
      · rw [destroy_groups, hk0]
        simp only [Option.some_bind, hag]
        exact e1
      · intro k
        by_cases hin : (k : Nat) ∈ is
        · exact ⟨fun _ => (e5 k).1 hin, fun hn => absurd (List.mem_cons_of_mem _ hin) hn⟩
        · refine ⟨fun hm => ?_, fun _ => (e5 k).2 hin⟩
          rcases List.mem_cons.mp hm with hm | hm
          · have : k = k0 := Fin.ext (by omega)
            rw [(e5 k).2 hin, this, hag]
          · exact absurd hm hin
    | some ag =>
      obtain ⟨g1, j1, fr1, e1, e2, e3, e4, e5⟩ :=
        ih (setGroup g k0 none) (max j ADJ_GROUP_SZ)
          (fr ++ destroy_slots ag (List.range' j (ADJ_GROUP_SZ - j))) hrest
      refine ⟨g1, j1, fr1, ?_, e2, e3, e4, ?_⟩
      · rw [destroy_groups, hk0]
        simp only [Option.some_bind, hag]
        exact e1
      · intro k
        by_cases hin : (k : Nat) ∈ is
        · exact ⟨fun _ => (e5 k).1 hin, fun hn => absurd (List.mem_cons_of_mem _ hin) hn⟩
        · have hk := (e5 k).2 hin
          rw [setGroup_apply] at hk
          refine ⟨fun hm => ?_, fun hn => ?_⟩
          · rcases List.mem_cons.mp hm with hm | hm
            · have : k = k0 := Fin.ext (by omega)
              rw [hk, if_pos this]
            · exact absurd hm hin
          · have : k ≠ k0 := by
              intro e
              apply hn
              rw [e, hk0v]
              exact List.mem_cons_self _ _
            rw [hk, if_neg this]

theorem destroy_groups_null (is : List Nat) : ∀ (g : graph) (j : Nat) (fr : List (List edge × vertice)),
    (∀ i ∈ is, i < 8) →
    (∀ k : Fin ADJ_GROUPS_NR, (k : Nat) ∈ is → g.g_adj_list_groups k = none) →
    destroy_groups g j fr is = some (g, j, fr) := by
  induction is with
  | nil => intro g j fr _ _; rfl
  | cons i is ih =>
    intro g j fr h hnull
    obtain ⟨k0, hk0, hk0v⟩ := groupIx_of_lt (h i (List.mem_cons_self _ _))
    have hag := hnull k0 (by rw [hk0v]; exact List.mem_cons_self _ _)
    rw [destroy_groups, hk0]
    simp only [Option.some_bind, hag]
    exact ih g j fr (fun x hx => h x (List.mem_cons_of_mem _ hx))
      (fun k hk => hnull k (List.mem_cons_of_mem _ hk))

/-- C15. Teardown idempotence: for every graph state whose bucket count fits
the pointer array (`g_nr_adj_list_groups <= ADJ_GROUPS_NR`, as in every graph
that `graph_create` returns), `graph_destroy(g)` is defined and leaves
`g_nr_vertices = 0` and every bucket pointer with index below the bucket count
NULL; a second `graph_destroy` on the resulting state is defined, destroys
nothing and returns that state unchanged. -/
theorem graph_destroy_twice (g : graph) (hb : g.g_nr_adj_list_groups ≤ 8) :
    ∃ g1 fr, graph_destroy (some g) = some (some g1, fr) ∧
      g1.g_nr_vertices = 0 ∧
      (∀ k : Fin ADJ_GROUPS_NR, ((k : Nat) : Int) < g1.g_nr_adj_list_groups →
        g1.g_adj_list_groups k = none) ∧
      graph_destroy (some g1) = some (some g1, []) := by
  have hr : ∀ i ∈ List.range g.g_nr_adj_list_groups.toNat, i < 8 := by
    intro i hi
    rw [List.mem_range] at hi
    omega
  obtain ⟨g1, j1, fr1, e1, e2, e3, e4, e5⟩ := destroy_groups_total _ g 0 [] hr
  have hnull : ∀ k : Fin ADJ_GROUPS_NR, ((k : Nat) : Int) < g.g_nr_adj_list_groups →
      g1.g_adj_list_groups k = none := by
    intro k hk
    apply (e5 k).1
    rw [List.mem_range]
    omega
  refine ⟨{ g1 with g_nr_vertices := 0 }, fr1, ?_, rfl, ?_, ?_⟩
  · simp only [graph_destroy, e1, Option.map_some']
  · intro k hk
    exact hnull k (by rw [← e4]; exact hk)
  · have hn := destroy_groups_null (List.range g.g_nr_adj_list_groups.toNat)
      { g1 with g_nr_vertices := 0 } 0 [] hr (by
        intro k hk
        rw [List.mem_range] at hk
        exact hnull k (by omega))
    rw [e4] at hn
    simp only [graph_destroy, e4, hn, Option.map_some']

/-- C15 (witness). Capacity 12 with the edge (0,1), destroyed twice. -/
theorem graph_destroy_twice_witness :
    ∃ g1 fr, graph_destroy (some (after_add (fresh_graph 12) 0 1 4)) = some (some g1, fr) ∧
      g1.g_nr_vertices = 0 ∧
      (∀ k : Fin ADJ_GROUPS_NR, ((k : Nat) : Int) < g1.g_nr_adj_list_groups →
        g1.g_adj_list_groups k = none) ∧
      graph_destroy (some g1) = some (some g1, []) :=
  graph_destroy_twice (after_add (fresh_graph 12) 0 1 4) (by decide)

theorem create_alloc_some (mem : Nat → adjGroup) (is : List Nat) : ∀ (g g1 : graph),
    create_alloc mem g is = some g1 →
    (∀ i ∈ is, i < 8) ∧ g1.g_nr_adj_list_groups = g.g_nr_adj_list_groups := by
  induction is with
  | nil =>
    intro g g1 h
    simp only [create_alloc, Option.some.injEq] at h
    subst h
    exact ⟨fun i hi => by simp at hi, rfl⟩
  | cons i is ih =>
    intro g g1 h
    rw [create_alloc] at h
    cases hk : groupIx (i : Int) with
    | none => simp [hk] at h
    | some k0 =>
      simp only [hk, Option.some_bind] at h
      obtain ⟨h1, h2⟩ := ih _ _ h
      refine ⟨?_, h2⟩
      intro x hx
      rcases List.mem_cons.mp hx with hx | hx
      · have := groupIx_some hk
        omega
      · exact h1 x hx

theorem create_clear_some (is : List Nat) : ∀ (g g1 : graph),
    create_clear g is = some g1 → g1.g_nr_adj_list_groups = g.g_nr_adj_list_groups := by
  induction is with
  | nil =>
    intro g g1 h
    simp only [create_clear, Option.some.injEq] at h
    subst h
    rfl
  | cons i is ih =>
    intro g g1 h
    rw [create_clear] at h
    cases hk : groupIx (i : Int) with
    | none => simp [hk] at h
    | some k0 =>
      simp only [hk, Option.some_bind] at h
      cases hag : g.g_adj_list_groups k0 with
      | none => simp [hag] at h
      | some ag =>
        simp only [hag, Option.some_bind] at h
        cases hc : create_clear_slots i ag (List.range ADJ_GROUP_SZ) with
        | none => simp [hc] at h
        | some ag1 =>
          simp only [hc, Option.some_bind] at h
          exact ih (setGroup g k0 (some ag1)) g1 h

/-- Every graph that `graph_create` returns has a bucket count that fits the
pointer array. -/
theorem graph_create_bucket_count (g0 g : graph) (n rc : Int) (d : Bool) (mem : Nat → adjGroup)
    (h : graph_create (some g0) n d mem = some (rc, some g)) :
    g.g_nr_adj_list_groups ≤ 8 := by
  unfold graph_create at h
  simp only at h
  generalize hnr : (if Int.tmod n 16 > 0 then Int.tdiv n 16 + 1 else Int.tdiv n 16) = nr at h
  cases ha : create_alloc mem
      { g0 with g_directed := d, g_nr_vertices := n, g_nr_adj_list_groups := nr }
      (List.range nr.toNat) with
  | none => simp [ha] at h
  | some g2 =>
    simp only [ha] at h
    cases hc : create_clear g2 (List.range nr.toNat) with
    | none => simp [hc] at h
    | some g3 =>
      simp only [hc, Option.some.injEq, Prod.mk.injEq] at h
      obtain ⟨_, h3⟩ := h
      subst h3
      obtain ⟨a1, a2⟩ := create_alloc_some _ _ _ _ ha
      rw [create_clear_some _ _ _ hc, a2]
      show nr ≤ 8
      by_contra hgt
      have := a1 8 (by rw [List.mem_range]; omega)
      omega

theorem connected_mono {es es1 : List (Int × Int)} (hsub : ∀ x ∈ es, x ∈ es1) {a b : Int}
    (h : connected es a b) : connected es1 a b := by
  induction h with
  | refl a => exact connected.refl a
  | edge a b hm => exact connected.edge a b (hsub _ hm)
  | symm a b _ ih => exact connected.symm a b ih
  | trans a b c _ _ ih1 ih2 => exact connected.trans a b c ih1 ih2

theorem parents_connected_mat_map (es : List (Int × Int)) (P : Int → Option Int)
    (src dst : Int) (h : parents_connected es P) :
    parents_connected es (mat_map P src dst) := by
  intro v q hv
  unfold mat_map at hv
  split at hv
  · cases hp : P v with
    | none =>
      rw [hp] at hv
      simp only [Option.getD_none, Option.some.injEq] at hv
      rw [← hv]
      exact connected.refl v
    | some p =>
      rw [hp] at hv
      simp only [Option.getD_some, Option.some.injEq] at hv
      rw [← hv]
      exact h v p hp
  · exact h v q hv

theorem parents_connected_union_map (es : List (Int × Int)) (Q : Int → Option Int)
    (a b : Int) (h : parents_connected es Q) (hab : connected es a b) :
    parents_connected es (union_map Q a b) := by
  have upd : ∀ x y, connected es x y → parents_connected es (Function.update Q x (some y)) := by
    intro x y hxy v q hv
    rw [Function.update_apply] at hv
    split at hv
    · rename_i e
      simp only [Option.some.injEq] at hv
      rw [e, ← hv]
      exact hxy
    · exact h v q hv
  unfold union_map
  by_cases hc : Q a = some a ∧ Q b = some b
  · rw [if_pos hc]
    by_cases hlt : a < b
    · simp only [hlt, if_true]
      exact upd b a (connected.symm a b hab)
    · simp only [hlt, if_false]
      exact upd a b hab
  · rw [if_neg hc]
    by_cases h2 : Q a = Q b
    · rw [if_pos h2]; exact h
    · rw [if_neg h2]
      by_cases h3 : Q a = some a
      · rw [if_pos h3]
        cases hq : Q b with
        | none =>
          intro v q hv
          rw [Function.update_apply] at hv
          split at hv
          · simp at hv
          · exact h v q hv
        | some qb =>
          exact upd a qb (connected.trans a b qb hab (h b qb hq))
      · rw [if_neg h3]
        cases hq : Q a with
        | none =>
          intro v q hv
          rw [Function.update_apply] at hv
          split at hv
          · simp at hv
          · exact h v q hv
        | some qa =>
          exact upd b qa (connected.trans b a qa (connected.symm a b hab) (h a qa hq))

theorem parents_connected_next (es : List (Int × Int)) (P : Int → Option Int)
    (src dst : Int) (h : parents_connected es P) :
    parents_connected (es ++ [(src, dst)]) (next_parent P src dst) := by
  unfold next_parent
  apply parents_connected_union_map
  · apply parents_connected_mat_map
    intro v q hv
    exact connected_mono (fun x hx => List.mem_append_left _ hx) (h v q hv)
  · exact connected.edge src dst (by simp)

theorem run_adds_connected (cs : List (Int × Int × Int)) :
    ∀ (g : graph) (es : List (Int × Int)),
    (∃ ag, g.g_adj_list_groups 0 = some ag) →
    parents_connected es (parentOf g) →
    (∀ c ∈ cs, 0 ≤ c.1 ∧ c.1 < 16 ∧ 0 ≤ c.2.1 ∧ c.2.1 < 16) →
    ∃ g1, run_adds g cs = some g1 ∧ g1.g_nr_vertices = g.g_nr_vertices ∧
      parents_connected (es ++ call_pairs cs) (parentOf g1) := by
  induction cs with
  | nil =>
    intro g es _ hp _
    exact ⟨g, rfl, rfl, by simpa [call_pairs] using hp⟩
  | cons c cs ih =>
    intro g es hag hp hv
    obtain ⟨ag, hag⟩ := hag
    obtain ⟨h0, h1, h2, h3⟩ := hv c (List.mem_cons_self _ _)
    obtain ⟨ag1, e1, e2⟩ := edge_add_parents g ag c.2.2 hag h0 h1 h2 h3
    have hp1 : parents_connected (es ++ [(c.1, c.2.1)])
        (parentOf (setGroup g 0 (some ag1))) := by
      rw [e2]
      exact parents_connected_next es _ _ _ hp
    obtain ⟨g1, r1, r2, r3⟩ := ih (setGroup g 0 (some ag1)) (es ++ [(c.1, c.2.1)])
      ⟨ag1, setGroup_same _ _ _⟩ hp1 (fun x hx => hv x (List.mem_cons_of_mem _ hx))
    refine ⟨g1, ?_, r2, ?_⟩
    · rw [run_adds, e1]
      exact r1
    · have : es ++ call_pairs (c :: cs) = es ++ [(c.1, c.2.1)] ++ call_pairs cs := by
        simp [call_pairs]
      rw [this]
      exact r3

/-- C17. Soundness of the relatedness query: on a fresh graph with all slots
empty, every sequence of `edge_add` calls with ids in `[0, 16)` and below the
capacity runs to a defined graph, and for all materialised vertices `a` and `b`
(ids below the capacity) of that graph, if `is_related(g, a, b)` returns true
then `a` and `b` lie in the same connected component of the undirected graph
whose edges are the `(src, dst)` pairs passed to `edge_add`. -/
theorem related_sound (g0 g : graph) (n : Int) (d : Bool) (cs : List (Int × Int × Int))
    (hc : graph_create (some g0) n d (fun _ => emptyGroup) = some (0, some g))
    (hv : ∀ c ∈ cs, 0 ≤ c.1 ∧ c.1 < 16 ∧ c.1 < n ∧ 0 ≤ c.2.1 ∧ c.2.1 < 16 ∧ c.2.1 < n) :
    ∃ g1, run_adds g cs = some g1 ∧
      ∀ a b, a < n → b < n → vertex_at g1 a ≠ none → vertex_at g1 b ≠ none →
        is_related (some g1) a b = some true → connected (call_pairs cs) a b := by
  obtain ⟨hcap, hfresh⟩ := graph_create_fresh hc
  by_cases hn : 0 < n
  · have hg := hfresh hn
    have hp0 : parents_connected [] (parentOf g) := by
      intro v q hq
      rw [parentOf_emptyGroup g hg v] at hq
      simp at hq
    obtain ⟨g1, r1, _, r3⟩ := run_adds_connected cs g [] ⟨_, hg⟩ hp0
      (fun c hcm => by
        obtain ⟨a1, a2, _, a4, a5, _⟩ := hv c hcm
        exact ⟨a1, a2, a4, a5⟩)
    refine ⟨g1, r1, ?_⟩
    intro a b _ _ ha hb hrel
    obtain ⟨va, hva⟩ := Option.ne_none_iff_exists'.mp ha
    obtain ⟨vb, hvb⟩ := Option.ne_none_iff_exists'.mp hb
    rw [is_related_eq g1 hva hvb] at hrel
    simp only [Option.some.injEq, decide_eq_true_eq] at hrel
    have pa : parentOf g1 a = some va.v_parent := by simp [parentOf, hva]
    have pb : parentOf g1 b = some va.v_parent := by simp [parentOf, hvb, hrel]
    simp only [List.nil_append] at r3
    exact connected.trans a _ b (r3 a _ pa) (connected.symm b _ (r3 b _ pb))
  · cases cs with
    | nil =>
      refine ⟨g, rfl, ?_⟩
      intro a b ha _ hva _ _
      exfalso
      cases hi : slotIx a with
      | none => exact hva (vertex_at_out g hi)
      | some i =>
        have := (slotIx_some hi).1
        omega
    | cons c cs =>
      exfalso
      obtain ⟨a1, _, a3, _⟩ := hv c (List.mem_cons_self _ _)
      omega

/-- C17 (witness). Capacity 3 and the calls (1,2), (0,1). -/
theorem related_sound_witness :
    ∃ g1, run_adds (fresh_graph 3) [(1, 2, 0), (0, 1, 0)] = some g1 ∧
      ∀ a b, a < 3 → b < 3 → vertex_at g1 a ≠ none → vertex_at g1 b ≠ none →
        is_related (some g1) a b = some true →
        connected (call_pairs [(1, 2, 0), (0, 1, 0)]) a b :=
  related_sound blank_graph (fresh_graph 3) 3 false [(1, 2, 0), (0, 1, 0)] (by rfl)
    (by decide)

/-- C18 (failing input). Capacity 32 gives two allocated buckets. The call
`edge_add(g, 17, 18, 1)` selects bucket 17 / 16 = 1 and then indexes its slot
array with 17, not with 17 mod 16 = 1: the access lies outside the 16 slots and
the call has no defined result. The call `edge_add(g, 1, 17, 1)` looks for
vertex 17 in bucket 0, the bucket of `src`, again at index 17. -/
theorem slot_index_not_reduced :
    (fresh_graph 32).g_nr_vertices = 32 ∧ (fresh_graph 32).g_nr_adj_list_groups = 2 ∧
      groupIx (Int.tdiv 17 16) = some 1 ∧
      (fresh_graph 32).g_adj_list_groups 1 ≠ none ∧
      slotIx 17 = none ∧ slotIx (17 % 16) = some 1 ∧
      vertice_find ((fresh_graph 32).g_adj_list_groups 1) 17 = none ∧
      edge_add (some (fresh_graph 32)) 17 18 1 = none ∧
      edge_add (some (fresh_graph 32)) 1 17 1 = none := by
  refine ⟨by rfl, by rfl, by rfl, ?_, by rfl, by rfl, by rfl, by rfl, by rfl⟩
  intro h
  have h2 := congrArg Option.isSome h
  revert h2
  decide

theorem edge_add_flag (g : graph) (src dst w : Int) (d : Bool) :
    edge_add (some { g with g_directed := d }) src dst w =
      (edge_add (some g) src dst w).map
        (fun r => (r.1, r.2.map (fun x => { x with g_directed := d }))) := by
  unfold edge_add
  simp only
  cases groupIx (Int.tdiv src 16) with
  | none => rfl
  | some k =>
    simp only
    cases vertice_find (g.g_adj_list_groups k) src with
    | none => rfl
    | some r =>
      cases r with
      | none => rfl
      | some p =>
        obtain ⟨i, ag⟩ := p
        simp only
        cases ag.adj_list i with
        | none => rfl
        | some v =>
          simp only
          split
          · cases vertice_find (some (setSlot ag i (some (_edge_add v dst w).2))) dst with
            | none => rfl
            | some r2 =>
              cases r2 with
              | none => rfl
              | some p2 =>
                obtain ⟨j, ag2⟩ := p2
                simp only
                cases unionOf ag2 src dst <;> rfl
          · rfl

/-- A call of `edge_add` with a defined result either leaves the graph as it
was (bucket pointer NULL, result `-ENOMEM`), or both ids are in `[0, 16)`,
bucket 0 is allocated, the call returns 0 and bucket 0 becomes the result of
`unionOf` on the bucket prepared by the two lookups and the edge insertion. -/
theorem edge_add_cases (g : graph) (src dst w rc : Int) (g1 : graph)
    (h : edge_add (some g) src dst w = some (rc, some g1)) :
    g1 = g ∨
    ∃ ag i j va vb, g.g_adj_list_groups 0 = some ag ∧ slotIx src = some i ∧
      slotIx dst = some j ∧
      (before_union ag src dst w i j).adj_list i = some va ∧
      (before_union ag src dst w i j).adj_list j = some vb ∧ rc = 0 ∧
      g1 = setGroup g 0 (some (union_result (before_union ag src dst w i j) src dst i j va vb)) := by
  cases hi : slotIx src with
  | none =>
    left
    unfold edge_add at h
    simp only at h
    cases hk : groupIx (Int.tdiv src 16) with
    | none => simp [hk] at h
    | some k =>
      simp only [hk] at h
      cases hg : g.g_adj_list_groups k with
      | none =>
        simp only [hg, vertice_find, Option.some.injEq, Prod.mk.injEq] at h
        exact h.2.symm
      | some ag =>
        simp [hg, vertice_find, hi] at h
  | some i =>
    have hs := slotIx_some hi
    cases hg : g.g_adj_list_groups 0 with
    | none =>
      left
      rw [edge_add_null_bucket g dst w hs.1 hs.2.1 hg] at h
      simp only [Option.some.injEq, Prod.mk.injEq] at h
      exact h.2.symm
    | some ag =>
      cases hj : slotIx dst with
      | none =>
        exfalso
        unfold edge_add at h
        simp only [groupIx_zero hs.1 hs.2.1, hg, vertice_find_some _ hi, materialise_self] at h
        have e1 : (_edge_add ((ag.adj_list i).getD (vertice_create ag src)) dst w).1 = 0 := rfl
        simp [e1, vertice_find, hj] at h
      | some j =>
        right
        obtain ⟨va, vb, hva, hvb, h1⟩ := edge_add_result g ag w hg hi hj
        rw [h1] at h
        simp only [Option.some.injEq, Prod.mk.injEq] at h
        exact ⟨ag, i, j, va, vb, rfl, rfl, rfl, hva, hvb, h.1.symm, h.2.symm⟩

theorem edge_add_frame_edges (g : graph) (src dst w rc : Int) (g1 : graph)
    (h : edge_add (some g) src dst w = some (rc, some g1)) (v : Int) (hv : v ≠ src) :
    edgesOf g1 v = edgesOf g v ∨
      (v = dst ∧ edgesOf g v = none ∧ edgesOf g1 v = some []) := by
  rcases edge_add_cases g src dst w rc g1 h with e | ⟨ag, i, j, va, vb, hg, hi, hj, hva, hvb, _, e⟩
  · left; rw [e]
  · subst e
    unfold edgesOf
    rw [vertex_at_setGroup, vertex_at_of_bucket g ag hg]
    cases hk : slotIx v with
    | none => left; simp [slot_at, hk]
    | some k =>
      have hki : k ≠ i := slotIx_ne hk hi hv
      rw [slot_at_of hk, slot_at_of hk, union_result_edges _ _ _ _ _ _ _ hva hvb k,
        before_union_slot, if_neg hki]
      by_cases hkj : k = j
      · rw [if_pos hkj]
        cases hx : ag.adj_list k with
        | none =>
          right
          subst hkj
          refine ⟨slotIx_inj hk hj, rfl, ?_⟩
          simp [hx, vertice_create]
        | some x =>
          left
          subst hkj
          simp [hx]
      · left
        rw [if_neg hkj]

/-- With both ids in `[0, 16)` the call `edge_add` has a defined result, whatever
the graph state. -/
theorem edge_add_defined (g : graph) (src dst w : Int)
    (hs0 : 0 ≤ src) (hs1 : src < 16) (hd0 : 0 ≤ dst) (hd1 : dst < 16) :
    ∃ rc g1, edge_add (some g) src dst w = some (rc, some g1) := by
  cases hg : g.g_adj_list_groups 0 with
  | none => exact ⟨_, _, edge_add_null_bucket g dst w hs0 hs1 hg⟩
  | some ag =>
    obtain ⟨i, hi⟩ := slotIx_of_range hs0 hs1
    obtain ⟨j, hj⟩ := slotIx_of_range hd0 hd1
    obtain ⟨va, vb, _, _, h1⟩ := edge_add_result g ag w hg hi hj
    exact ⟨_, _, h1⟩

/-- C20. Frame of edge insertion: for every graph state and every call
`edge_add(g, src, dst, w)` the call is defined when both ids are in `[0, 16)`,
and whenever it is defined (1) the edge list of every vertex other than `src`
is what it was, a vertex `dst` materialised by the call getting the empty list,
and no bucket other than bucket 0 is touched; (2) the same call on the graph
with any other `g_directed` flag returns the same code and the same graph up to
that flag; (3) for `src` and `dst` distinct, every edge from `dst` to `src`
stored after the call was stored before it, so no reverse edge is added, also
when the graph is undirected. -/
theorem edge_add_frame (g : graph) (src dst w : Int) :
    (0 ≤ src → src < 16 → 0 ≤ dst → dst < 16 →
      ∃ rc g1, edge_add (some g) src dst w = some (rc, some g1)) ∧
    ∀ rc g1, edge_add (some g) src dst w = some (rc, some g1) →
      ((∀ v, v ≠ src → edgesOf g1 v = edgesOf g v ∨
          (v = dst ∧ edgesOf g v = none ∧ edgesOf g1 v = some [])) ∧
        (∀ k : Fin ADJ_GROUPS_NR, k ≠ 0 → g1.g_adj_list_groups k = g.g_adj_list_groups k)) ∧
      (∀ d, edge_add (some { g with g_directed := d }) src dst w =
        some (rc, some { g1 with g_directed := d })) ∧
      (src ≠ dst → ∀ e ∈ (edgesOf g1 dst).getD [], e.e_data = src →
        e ∈ (edgesOf g dst).getD []) := by
  constructor
  · intro hs0 hs1 hd0 hd1
    exact edge_add_defined g src dst w hs0 hs1 hd0 hd1
  · intro rc g1 h
    refine ⟨⟨fun v hv => edge_add_frame_edges g src dst w rc g1 h v hv, ?_⟩, ?_, ?_⟩
    · intro k hk
      rcases edge_add_cases g src dst w rc g1 h with e | ⟨ag, i, j, va, vb, _, _, _, _, _, _, e⟩
      · rw [e]
      · rw [e, setGroup_apply, if_neg hk]
    · intro d
      rw [edge_add_flag, h]
      rfl
    · intro hne e he hes
      rcases edge_add_frame_edges g src dst w rc g1 h dst (Ne.symm hne) with h1 | ⟨_, _, h3⟩
      · rw [← h1]; exact he
      · rw [h3] at he
        simp at he

/-- C20 (witness). The call `edge_add(g, 0, 2, 7)` on the chain state, an
undirected graph in which vertex 2 has no edge. -/
theorem edge_add_frame_witness :
    (∃ rc g1, edge_add (some chain_graph) 0 2 7 = some (rc, some g1)) ∧
      ((∀ v, v ≠ 0 → edgesOf (after_add chain_graph 0 2 7) v = edgesOf chain_graph v ∨
          (v = 2 ∧ edgesOf chain_graph v = none ∧
            edgesOf (after_add chain_graph 0 2 7) v = some [])) ∧
        (∀ k : Fin ADJ_GROUPS_NR, k ≠ 0 →
          (after_add chain_graph 0 2 7).g_adj_list_groups k =
            chain_graph.g_adj_list_groups k)) ∧
      (∀ d, edge_add (some { chain_graph with g_directed := d }) 0 2 7 =
        some (0, some { after_add chain_graph 0 2 7 with g_directed := d })) ∧
      ((0 : Int) ≠ 2 → ∀ e ∈ (edgesOf (after_add chain_graph 0 2 7) 2).getD [], e.e_data = 0 →
        e ∈ (edgesOf chain_graph 2).getD []) :=
  ⟨(edge_add_frame chain_graph 0 2 7).1 (by decide) (by decide) (by decide) (by decide),
    (edge_add_frame chain_graph 0 2 7).2 0 (after_add chain_graph 0 2 7) (by rfl)⟩

end Graphism
